import Mathlib

/-!
# timeconv: a shallow embedding of `cmd/main.go`

The program converts integer epoch timestamps (seconds, milliseconds,
microseconds or nanoseconds) into RFC 3339 calendar strings.

The embedding follows `src/v1/cmd/main.go` function by function
(`format.Default`, `format.Matches`, `Options.From`, `Options.To`, `exec`,
`main`).  The Go standard-library routines it calls (`strings.TrimSpace`,
`strings.ToLower`, `strings.Split`, `strconv.ParseInt`, `time.Unix`,
`time.UnixMilli`, `time.UnixMicro`, `Time.Format`) are embedded from the Go
sources, with 64-bit machine arithmetic made explicit.

Conventions.
* A Go string holding UTF-8 text is a list of code points, `Str`.
* `int64`/`int` values are `Int`, wrapped by `wrap64` wherever Go arithmetic
  can overflow; `uint64` values are `Nat`, reduced modulo `2^64`.
* Data that lives outside the repository and outside the Go sources that are
  embedded here (the Unicode case table above ASCII, the time-zone database
  entry of the process, `strconv.Quote`, `Time.String`) is a field of `Env`.
-/

namespace Timeconv

/-! ## Machine integers -/

/-- Conversion of a mathematical integer to `int64` (two's complement wrap). -/
def wrap64 (x : Int) : Int := (x + 2 ^ 63) % 2 ^ 64 - 2 ^ 63

/-- Conversion of an integer to `uint64`. -/
def toUint64 (x : Int) : Nat := (x % 2 ^ 64).toNat

/-- Conversion of an integer to `int32`. -/
def wrap32 (x : Int) : Int := (x + 2 ^ 31) % 2 ^ 32 - 2 ^ 31

/-- The smallest `int64`. -/
def minInt64 : Int := -(2 ^ 63)

/-- The largest `int64`. -/
def maxInt64 : Int := 2 ^ 63 - 1

/-- The largest `uint64`. -/
def maxUint64 : Nat := 2 ^ 64 - 1

/-! ## Strings -/

/-- A Go string holding UTF-8 text, as its sequence of code points. -/
abbrev Str := List Char

/-- Go `unicode.IsSpace`: the Latin-1 cases of the switch, then the
`White_Space` range table. -/
def unicodeIsSpace (r : Char) : Bool :=
  let c := r.toNat
  if c ≤ 0xFF then
    c = 0x09 || c = 0x0A || c = 0x0B || c = 0x0C || c = 0x0D || c = 0x20
      || c = 0x85 || c = 0xA0
  else
    c = 0x1680 || (0x2000 ≤ c && c ≤ 0x200A) || c = 0x2028 || c = 0x2029
      || c = 0x202F || c = 0x205F || c = 0x3000

/-- Go `strings.TrimSpace`: the string without its leading and trailing white
space. -/
def TrimSpace (s : Str) : Str :=
  ((s.dropWhile unicodeIsSpace).reverse.dropWhile unicodeIsSpace).reverse

/-- Go `unicode.ToLower`; `table` is `unicode.To(unicode.LowerCase, ·)`, used
above ASCII only. -/
def unicodeToLower (table : Char → Char) (r : Char) : Char :=
  if r.toNat ≤ 0x7F then
    if 'A'.toNat ≤ r.toNat ∧ r.toNat ≤ 'Z'.toNat then Char.ofNat (r.toNat + 32) else r
  else table r

/-- Go `strings.ToLower`: the ASCII fast path (the string is returned as is
when it has no upper-case letter), else `strings.Map(unicode.ToLower, s)`. -/
def ToLower (table : Char → Char) (s : Str) : Str :=
  if s.all (fun c => decide (c.toNat < 0x80)) then
    if s.any (fun c => decide ('A'.toNat ≤ c.toNat ∧ c.toNat ≤ 'Z'.toNat)) then
      s.map (fun c =>
        if 'A'.toNat ≤ c.toNat ∧ c.toNat ≤ 'Z'.toNat then Char.ofNat (c.toNat + 32) else c)
    else s
  else s.map (unicodeToLower table)

/-- The loop of Go `strings.Split(s, "\n")`: `cur` holds, reversed, the
characters of the piece being read. -/
def splitLoop : Str → Str → List Str
  | [], cur => [cur.reverse]
  | c :: rest, cur =>
    if c = '\n' then cur.reverse :: splitLoop rest [] else splitLoop rest (c :: cur)

/-- Go `strings.Split(s, "\n")`. -/
def Split (s : Str) : List Str := splitLoop s []

/-! ## Formats (`main.go` lines 17-43) -/

/-- The Go type `format`, a slice of alias strings. -/
abbrev format := List Str

/-- The Go method `format.Default`. -/
def format.Default (f : format) : Str :=
  match f with
  | e :: _ => e
  | [] => []

/-- The Go method `format.Matches`: the range loop compares every alias with
the trimmed, lower-cased identifier. -/
def format.Matches (table : Char → Char) (f : format) (v : Str) : Bool :=
  let v := ToLower table (TrimSpace v)
  f.any (fun e => decide (e = v))

def formatNano : format := ["nano".toList, "nanos".toList]
def formatMicro : format := ["micro".toList, "micros".toList]
def formatMilli : format := ["milli".toList, "millis".toList]
def formatUnix : format := ["unix".toList, "sec".toList, "secs".toList]
def formatRFC3339 : format := ["rfc3339".toList]

/-! ## Errors -/

/-- The two sentinel errors a `*strconv.NumError` of `ParseInt` can carry. -/
inductive NumErrKind
  | ErrSyntax
  | ErrRange
  deriving DecidableEq, Repr

/-- The error values of the program. -/
inductive GoError
  /-- The package variable `errUnsupported`. -/
  | errUnsupported
  /-- A `*strconv.NumError` with its `Func`, `Num` and `Err` fields. -/
  | numError (Func : Str) (Num : Str) (Err : NumErrKind)
  /-- The error of `ioutil.ReadAll(os.Stdin)`, with its message. -/
  | readError (msg : Str)
  /-- The value of `fmt.Errorf` with a `%w` verb: its formatted message and
  the error it wraps. -/
  | wrapError (msg : Str) (err : GoError)
  deriving DecidableEq, Repr

/-- A Go result pair `(value, error)`: exactly one side is meaningful. -/
inductive Result (α : Type)
  | ok (v : α)
  | error (e : GoError)
  deriving DecidableEq, Repr

/-! ## `strconv.ParseInt(text, 10, 64)` -/

/-- The loop of Go `strconv.ParseUint(s, 10, 64)`; `n` is the `uint64`
accumulator.  The result is the pair `(value, error)` of the Go function: a
byte that is not a decimal digit gives `(0, ErrSyntax)`, an overflow of `n*10`
or of `n*10 + d` gives `(maxVal, ErrRange)`, each reported at once. -/
def parseUintLoop : Str → Nat → Nat × Option NumErrKind
  | [], n => (n, none)
  | c :: rest, n =>
    if '0'.toNat ≤ c.toNat ∧ c.toNat ≤ '9'.toNat then
      let d := c.toNat - '0'.toNat
      if n ≥ maxUint64 / 10 + 1 then (maxUint64, some .ErrRange)
      else
        let n10 := (n * 10) % 2 ^ 64
        let n1 := (n10 + d) % 2 ^ 64
        if n1 < n10 ∨ n1 > maxUint64 then (maxUint64, some .ErrRange)
        else parseUintLoop rest n1
    else (0, some .ErrSyntax)

/-- Go `strconv.ParseUint(s, 10, 64)`, up to the `Func` and `Num` fields of
the error, which `ParseInt` overwrites or rebuilds. -/
def ParseUint (s : Str) : Nat × Option NumErrKind :=
  if s = [] then (0, some .ErrSyntax) else parseUintLoop s 0

/-- The name `strconv.ParseInt` stores in the `Func` field of its errors. -/
def fnParseInt : Str := "ParseInt".toList

/-- Go `strconv.ParseInt(s, 10, 64)`: the sign is picked off, the rest goes
through `ParseUint`, a syntax error is passed on, and the magnitude (also the
`maxVal` of a range error) is checked against `cutoff = 2^63`. -/
def ParseInt (s : Str) : Result Int :=
  match s with
  | [] => .error (.numError fnParseInt s .ErrSyntax)
  | c :: rest =>
    let neg := decide (c = '-')
    let s1 := if c = '+' ∨ c = '-' then rest else s
    let r := ParseUint s1
    if r.2 = some .ErrSyntax then .error (.numError fnParseInt s .ErrSyntax)
    else
      let un := r.1
      let cutoff : Nat := 2 ^ 63
      if neg = false ∧ un ≥ cutoff then .error (.numError fnParseInt s .ErrRange)
      else if neg = true ∧ un > cutoff then .error (.numError fnParseInt s .ErrRange)
      else
        let n := wrap64 un
        .ok (if neg then wrap64 (-n) else n)

/-! ## Package `time`: instants -/

def secondsPerMinute : Nat := 60
def secondsPerHour : Nat := 60 * secondsPerMinute
def secondsPerDay : Nat := 24 * secondsPerHour
def daysPer400Years : Nat := 365 * 400 + 97
def daysPer100Years : Nat := 365 * 100 + 24
def daysPer4Years : Nat := 365 * 4 + 1

/-- The year of the absolute zero instant of package `time`. -/
def absoluteZeroYear : Int := -292277022399

/-- Seconds from the absolute zero instant to January 1 of year 1:
`-(absoluteZeroYear - 1) * 365.2425 * secondsPerDay`. -/
def internalToAbsolute : Int := 292277022400 * 31556952

/-- Seconds from January 1 of year 1 to January 1, 1970. -/
def unixToInternal : Int := (1969 * 365 + 1969 / 4 - 1969 / 100 + 1969 / 400) * secondsPerDay

def internalToUnix : Int := -unixToInternal

/-- Seconds from January 1 of year 1 to January 1, 1885. -/
def wallToInternal : Int := (1884 * 365 + 1884 / 4 - 1884 / 100 + 1884 / 400) * secondsPerDay

/-- The `loc` field of a `time.Time`, for the two values the program meets:
the nil pointer of the zero `Time` (read as UTC) and `time.Local`. -/
inductive Location
  | nilLoc
  | Local
  deriving DecidableEq, Repr

/-- The Go struct `time.Time`: `wall` is a `uint64`, `ext` an `int64`. -/
structure Time where
  wall : Nat
  ext : Int
  loc : Location
  deriving DecidableEq, Repr

/-- The zero value `time.Time{}`. -/
def Time.zero : Time := ⟨0, 0, .nilLoc⟩

/-- Go `(*Time).nsec`: `int32(t.wall & nsecMask)`. -/
def Time.nsec (t : Time) : Int := ((t.wall % 2 ^ 30 : Nat) : Int)

/-- Go `(*Time).sec`: seconds since January 1 of year 1; the first branch
reads the wall seconds of a time that carries a monotonic clock reading. -/
def Time.sec (t : Time) : Int :=
  if t.wall / 2 ^ 63 % 2 ≠ 0 then
    wrap64 (wallToInternal + (((t.wall * 2 % 2 ^ 64) / 2 ^ 31 : Nat) : Int))
  else t.ext

/-- Go `(*Time).unixSec`, which is also `Time.Unix`: seconds since the epoch. -/
def Time.unixSec (t : Time) : Int := wrap64 (t.sec + internalToUnix)

/-- Go `time.unixTime`. -/
def unixTime (sec : Int) (nsec : Int) : Time :=
  ⟨toUint64 nsec, wrap64 (sec + unixToInternal), .Local⟩

/-- Go `time.Unix(sec, nsec)`: a nanosecond count outside `[0, 1e9)` is
carried into the seconds. -/
def Unix (sec : Int) (nsec : Int) : Time :=
  if nsec < 0 ∨ nsec ≥ 1000000000 then
    let n := Int.tdiv nsec 1000000000
    let sec1 := wrap64 (sec + n)
    let nsec1 := wrap64 (nsec - wrap64 (n * 1000000000))
    if nsec1 < 0 then unixTime (wrap64 (sec1 - 1)) (wrap32 (wrap64 (nsec1 + 1000000000)))
    else unixTime sec1 (wrap32 nsec1)
  else unixTime sec (wrap32 nsec)

/-- Go `time.UnixMilli(msec)`. -/
def UnixMilli (msec : Int) : Time :=
  Unix (Int.tdiv msec 1000) (wrap64 (Int.tmod msec 1000 * 1000000))

/-- Go `time.UnixMicro(usec)`. -/
def UnixMicro (usec : Int) : Time :=
  Unix (Int.tdiv usec 1000000) (wrap64 (Int.tmod usec 1000000 * 1000))

/-! ## Package `time`: the calendar -/

/-- Go `time.absClock`. -/
def absClock (abs : Nat) : Nat × Nat × Nat :=
  let sec := abs % secondsPerDay
  let hour := sec / secondsPerHour
  let sec := sec - hour * secondsPerHour
  let min := sec / secondsPerMinute
  let sec := sec - min * secondsPerMinute
  (hour, min, sec)

/-- Go `time.isLeap`; `%` is the truncated remainder. -/
def isLeap (year : Int) : Bool :=
  decide (Int.tmod year 4 = 0 ∧ (Int.tmod year 100 ≠ 0 ∨ Int.tmod year 400 = 0))

/-- The Go table `daysBefore`: days of a non-leap year before each month. -/
def daysBefore : List Nat :=
  [0, 31, 31 + 28, 31 + 28 + 31, 31 + 28 + 31 + 30, 31 + 28 + 31 + 30 + 31,
   31 + 28 + 31 + 30 + 31 + 30, 31 + 28 + 31 + 30 + 31 + 30 + 31,
   31 + 28 + 31 + 30 + 31 + 30 + 31 + 31, 31 + 28 + 31 + 30 + 31 + 30 + 31 + 31 + 30,
   31 + 28 + 31 + 30 + 31 + 30 + 31 + 31 + 30 + 31,
   31 + 28 + 31 + 30 + 31 + 30 + 31 + 31 + 30 + 31 + 30,
   31 + 28 + 31 + 30 + 31 + 30 + 31 + 31 + 30 + 31 + 30 + 31]

/-- The year and the zero-based day of the year of Go `time.absDate`: the
400-, 100-, 4- and 1-year cycles are cut off the day count in turn. -/
def absYearDay (abs : Nat) : Int × Nat :=
  let d := abs / secondsPerDay
  let n := d / daysPer400Years
  let y := 400 * n
  let d := d - daysPer400Years * n
  let n := d / daysPer100Years
  let n := n - n / 4
  let y := y + 100 * n
  let d := d - daysPer100Years * n
  let n := d / daysPer4Years
  let y := y + 4 * n
  let d := d - daysPer4Years * n
  let n := d / 365
  let n := n - n / 4
  let y := y + n
  let d := d - 365 * n
  (wrap64 ((y : Int) + absoluteZeroYear), d)

/-- The month and day of Go `time.absDate(abs, true)`, from the zero-based day
of the year; `leap` is the value of `isLeap(year)`. -/
def monthDay (leap : Bool) (yday : Nat) : Nat × Nat :=
  let day := yday
  if leap = true ∧ day = 31 + 29 - 1 then (2, 29)
  else
    let day := if leap = true ∧ day > 31 + 29 - 1 then day - 1 else day
    let month := day / 31
    let stop := daysBefore.getD (month + 1) 0
    if day ≥ stop then (month + 1 + 1, day - stop + 1)
    else (month + 1, day - daysBefore.getD month 0 + 1)

/-- Go `time.absDate(abs, true)`: year, month, day of the month and one-based
day of the year. -/
def absDate (abs : Nat) : Int × Nat × Nat × Nat :=
  let yd := absYearDay abs
  let md := monthDay (isLeap yd.1) yd.2
  (yd.1, md.1, md.2, yd.2 + 1)

/-! ## Package `time`: formatting -/

/-- The digit loop of Go `time.appendInt`, filling its 20-byte buffer from the
right: `acc` is the part of the buffer written so far and `room` the number
of bytes left before it. -/
def appendIntLoop : Nat → Nat → Str → Str
  | 0, _, acc => acc
  | room + 1, u, acc =>
    if u ≥ 10 then appendIntLoop room (u / 10) (Char.ofNat ('0'.toNat + (u - u / 10 * 10)) :: acc)
    else Char.ofNat ('0'.toNat + u) :: acc

/-- Go `time.appendInt(b, x, width)` for an empty `b`: a minus sign for a
negative `x`, then the decimal digits padded with zeros to `width`. -/
def appendInt (x : Int) (width : Nat) : Str :=
  let u := if x < 0 then toUint64 (wrap64 (-x)) else toUint64 x
  let digits := appendIntLoop 20 u []
  (if x < 0 then ['-'] else []) ++ List.replicate (width - digits.length) '0' ++ digits

/-- The zone part of Go `Time.AppendFormat` for the chunk `Z07:00`
(`stdISO8601ColonTZ`): `Z` for a zero offset, else sign, hours, colon,
minutes. -/
def appendZone (offset : Int) : Str :=
  if offset = 0 then ['Z']
  else
    let zone := Int.tdiv offset 60
    if zone < 0 then
      ['-'] ++ appendInt (Int.tdiv (-zone) 60) 2 ++ [':'] ++ appendInt (Int.tmod (-zone) 60) 2
    else
      ['+'] ++ appendInt (Int.tdiv zone 60) 2 ++ [':'] ++ appendInt (Int.tmod zone 60) 2

/-- The text Go `Time.AppendFormat` writes for the layout `time.RFC3339`,
`2006-01-02T15:04:05Z07:00`, from the absolute second count and the zone
offset that `locabs` returns. -/
def appendRFC3339 (offset : Int) (abs : Nat) : Str :=
  let date := absDate abs
  let clock := absClock abs
  appendInt date.1 4 ++ ['-'] ++ appendInt date.2.1 2 ++ ['-'] ++ appendInt date.2.2.1 2
    ++ ['T'] ++ appendInt clock.1 2 ++ [':'] ++ appendInt clock.2.1 2 ++ [':']
    ++ appendInt clock.2.2 2 ++ appendZone offset

/-- Go `Time.locabs`, without the zone name: the zone offset in effect and
the absolute second count of the wall clock.  `zone` is the offset lookup of
the local time zone of the process. -/
def Time.locabs (zone : Int → Int) (t : Time) : Int × Nat :=
  let sec := t.unixSec
  match t.loc with
  | .nilLoc => (0, toUint64 (wrap64 (sec + (unixToInternal + internalToAbsolute))))
  | .Local =>
    let offset := zone sec
    let sec := wrap64 (sec + offset)
    (offset, toUint64 (wrap64 (sec + (unixToInternal + internalToAbsolute))))

/-- Go `t.Format(time.RFC3339)`. -/
def Time.FormatRFC3339 (zone : Int → Int) (t : Time) : Str :=
  let la := t.locabs zone
  appendRFC3339 la.1 la.2

/-! ## Options and the converters (`main.go` lines 45-90) -/

/-- The Go struct `Options`. -/
structure Options where
  FromFormat : Str
  ToFormat : Str
  Debug : Bool
  Verbose : List Bool
  deriving DecidableEq, Repr

/-- What the program takes from outside the repository and outside the
standard-library code embedded above. -/
structure Env where
  /-- The table `unicode.To(unicode.LowerCase, r)`, read for `r` above ASCII. -/
  lowerTable : Char → Char
  /-- The local time zone of the process: the offset, in seconds east of UTC,
  in effect at a Unix time (`Location.lookup`). -/
  localOffset : Int → Int
  /-- The function `strconv.Quote`. -/
  Quote : Str → Str
  /-- The method `Time.String`. -/
  timeString : Time → Str
  /-- The go-flags parser of `parseArgs`: from the initial options and the
  command line, the options and the remaining positional arguments. -/
  parseArgs : Options → List Str → Result (Options × List Str)

/-- The Go method `Options.From`. -/
def Options.From (env : Env) (o : Options) (text : Str) : Result Time :=
  if formatUnix.Matches env.lowerTable o.FromFormat then
    match ParseInt text with
    | .error err => .error err
    | .ok v => .ok (Unix v 0)
  else if formatMilli.Matches env.lowerTable o.FromFormat then
    match ParseInt text with
    | .error err => .error err
    | .ok v => .ok (UnixMilli v)
  else if formatMicro.Matches env.lowerTable o.FromFormat then
    match ParseInt text with
    | .error err => .error err
    | .ok v => .ok (UnixMicro v)
  else if formatNano.Matches env.lowerTable o.FromFormat then
    match ParseInt text with
    | .error err => .error err
    | .ok v => .ok (Unix 0 v)
  else .error .errUnsupported

/-- The Go method `Options.To`. -/
def Options.To (env : Env) (o : Options) (t : Time) : Result Str :=
  if formatRFC3339.Matches env.lowerTable o.ToFormat then
    .ok (t.FormatRFC3339 env.localOffset)
  else .error .errUnsupported

/-! ## The driver (`main.go` lines 96-136) -/

/-- Go `err.Error()` for the errors of the program. -/
def GoError.Error (env : Env) : GoError → Str
  | .errUnsupported => "Unsupported format".toList
  | .numError fn num .ErrSyntax =>
    "strconv.".toList ++ fn ++ ": parsing ".toList ++ env.Quote num ++ ": invalid syntax".toList
  | .numError fn num .ErrRange =>
    "strconv.".toList ++ fn ++ ": parsing ".toList ++ env.Quote num
      ++ ": value out of range".toList
  | .readError msg => msg
  | .wrapError msg _ => msg

/-- The loop of `exec` (lines 123-133) over the input units: the lines it
prints, in order, and the error it returns, if any. -/
def execLoop (env : Env) (opts : Options) : List Str → List Str × Option GoError
  | [] => ([], none)
  | e :: rest =>
    match opts.From env e with
    | .error err =>
      ([], some (.wrapError ("Input: ".toList ++ e ++ " as ".toList ++ opts.FromFormat
        ++ ": ".toList ++ err.Error env) err))
    | .ok t =>
      match opts.To env t with
      | .error err =>
        ([], some (.wrapError ("Output: ".toList ++ env.timeString t ++ " as ".toList
          ++ opts.ToFormat ++ ": ".toList ++ err.Error env) err))
      | .ok s =>
        let r := execLoop env opts rest
        (s :: r.1, r.2)

/-- The options `exec` hands to the flag parser. -/
def defaultOptions : Options :=
  ⟨formatUnix.Default, formatRFC3339.Default, false, []⟩

/-- The input units of `exec` (lines 115-121): the positional arguments, or
the lines of standard input when there is none. -/
def inputUnits (args : List Str) (stdin : Result Str) : Result (List Str) :=
  if args.length = 0 then
    match stdin with
    | .error err => .error err
    | .ok d => .ok (Split d)
  else .ok args

/-- The Go function `exec`: `osArgs` is `os.Args[1:]` and `stdin` what
`ioutil.ReadAll(os.Stdin)` returns when it is called.  The result is the list
of lines printed and the error returned. -/
def exec (env : Env) (osArgs : List Str) (stdin : Result Str) : List Str × Option GoError :=
  match env.parseArgs defaultOptions osArgs with
  | .error err => ([], some err)
  | .ok (opts, args) =>
    match inputUnits args stdin with
    | .error err => ([], some err)
    | .ok units => execLoop env opts units

/-- The Go function `main`: the lines written to standard output and the exit
status. -/
def main (env : Env) (osArgs : List Str) (stdin : Result Str) : List Str × Nat :=
  let r := exec env osArgs stdin
  match r.2 with
  | none => (r.1, 0)
  | some err => (r.1 ++ ["* * * ".toList ++ err.Error env], 1)

/-! ## Specification-side notions -/

/-- A decimal digit character. -/
def isDigit (c : Char) : Bool := decide ('0'.toNat ≤ c.toNat ∧ c.toNat ≤ '9'.toNat)

/-- The number a string of decimal digits denotes, most significant digit
first. -/
def digitsValue (ds : Str) : Nat := ds.foldl (fun a c => a * 10 + (c.toNat - '0'.toNat)) 0

/-- A syntactically valid signed base-10 integer: an optional `+` or `-`
followed by one or more decimal digits, and nothing else. -/
def isSignedDecimal (s : Str) : Bool :=
  match s with
  | [] => false
  | c :: rest =>
    if c = '+' ∨ c = '-' then !rest.isEmpty && rest.all isDigit
    else s.all isDigit

/-- The integer a signed decimal denotes. -/
def decimalValue (s : Str) : Int :=
  match s with
  | [] => 0
  | c :: rest =>
    if c = '-' then -(digitsValue rest : Int)
    else if c = '+' then (digitsValue rest : Int)
    else (digitsValue s : Int)

/-- The decimal digits of a natural number, most significant first, without
leading zeros (`0` for zero). -/
def natText (m : Nat) : Str :=
  if m = 0 then ['0'] else (Nat.digits 10 m).reverse.map (fun d => Char.ofNat ('0'.toNat + d))

/-- The decimal text of an integer: a minus sign for a negative number, then
the digits of its magnitude. -/
def decimalText (n : Int) : Str :=
  if n < 0 then '-' :: natText n.natAbs else natText n.natAbs

/-- The offset of an instant from the epoch 1970-01-01T00:00:00Z in
nanoseconds, as a mathematical integer: the seconds of `Time.Unix` and the
nanoseconds of `Time.Nanosecond`. -/
def Time.epochNanos (t : Time) : Int := t.unixSec * 1000000000 + t.nsec

/-- The identifier as `format.Matches` compares it: trimmed, then
lower-cased. -/
def normalize (table : Char → Char) (v : Str) : Str := ToLower table (TrimSpace v)

/-- An environment for the examples: the local time zone is at a fixed
offset `offset` from UTC, the positional arguments are the whole command line
(no flag is given), and the tables not reached by ASCII input are trivial. -/
def fixedZoneEnv (offset : Int) : Env :=
  ⟨id, fun _ => offset, fun s => ['"'] ++ s ++ ['"'], fun _ => [], fun o a => .ok (o, a)⟩

/-- The example environment whose local time zone is UTC. -/
def utcEnv : Env := fixedZoneEnv 0

/-- The string `v` is a proper prefix of `a`. -/
def properPrefixOf (v a : Str) : Prop := v <+: a ∧ v ≠ a

/-- The string `v` is a proper suffix of `a`. -/
def properSuffixOf (v a : Str) : Prop := v <:+ a ∧ v ≠ a

/-- The string `v` is a proper superstring of `a`: it contains `a` and is
longer. -/
def properSuperstringOf (v a : Str) : Prop := a <:+: v ∧ v ≠ a

/-- The input format identifier matches one of the four input rules. -/
def matchesInputRule (table : Char → Char) (v : Str) : Bool :=
  formatUnix.Matches table v || formatMilli.Matches table v || formatMicro.Matches table v
    || formatNano.Matches table v

/-- The options with the given input format identifier and the default output
format. -/
def optionsFrom (fromFormat : Str) : Options := ⟨fromFormat, formatRFC3339.Default, false, []⟩

/-- The conversion of one input unit: decoding, then encoding. -/
def convert (env : Env) (opts : Options) (e : Str) : Result Str :=
  match opts.From env e with
  | .error err => .error err
  | .ok t => opts.To env t

/-- The unit converts: neither decoding nor encoding fails on it. -/
def converts (env : Env) (opts : Options) (e : Str) : Bool :=
  match convert env opts e with
  | .ok _ => true
  | .error _ => false

/-- Go `errors.Unwrap`, followed to the end of the chain. -/
def GoError.cause : GoError → GoError
  | .wrapError _ err => err.cause
  | err => err

/-- A malformed-input error: its cause is the `*NumError` of `ParseInt`. -/
def GoError.isMalformedInput (err : GoError) : Bool :=
  match err.cause with
  | .numError _ _ _ => true
  | _ => false

/-- The options with the given input and output format identifiers. -/
def optionsOf (fromFormat toFormat : Str) : Options := ⟨fromFormat, toFormat, false, []⟩

/-- An example environment in which the flag parser has read the flags that
set the options to `opts` and returns the rest of the command line as the
positional arguments; the local time zone is at `offset` from UTC. -/
def flagsEnv (offset : Int) (opts : Options) : Env :=
  ⟨id, fun _ => offset, fun s => ['"'] ++ s ++ ['"'], fun _ => [], fun _ a => .ok (opts, a)⟩

/-! ## The proleptic Gregorian calendar, as a specification -/

/-- The leap years of the Gregorian calendar. -/
def leapYear (y : Int) : Bool := decide (y % 4 = 0 ∧ (y % 100 ≠ 0 ∨ y % 400 = 0))

/-- The number of days of a month, `1` for January to `12` for December. -/
def monthLength (leap : Bool) (m : Nat) : Nat :=
  match m with
  | 1 => 31
  | 2 => if leap then 29 else 28
  | 3 => 31
  | 4 => 30
  | 5 => 31
  | 6 => 30
  | 7 => 31
  | 8 => 31
  | 9 => 30
  | 10 => 31
  | 11 => 30
  | 12 => 31
  | _ => 0

/-- The days of a year before the first day of month `m`: the lengths of the
months `1` to `m - 1`, added up. -/
def daysBeforeMonth (leap : Bool) (m : Nat) : Nat :=
  ((List.range' 1 (m - 1)).map (monthLength leap)).sum

/-- The days from January 1 of year 1 to January 1 of year `y`: 365 for each
year in between, and one more for each leap year among them. -/
def daysBeforeYear (y : Int) : Int :=
  365 * (y - 1) + (y - 1) / 4 - (y - 1) / 100 + (y - 1) / 400

/-- A calendar date with a time of day. -/
structure Civil where
  year : Int
  month : Nat
  day : Nat
  hour : Nat
  minute : Nat
  second : Nat
  deriving DecidableEq, Repr

/-- The date exists in the calendar and the time of day on the clock. -/
def Civil.valid (c : Civil) : Prop :=
  1 ≤ c.month ∧ c.month ≤ 12 ∧ 1 ≤ c.day ∧ c.day ≤ monthLength (leapYear c.year) c.month
    ∧ c.hour < 24 ∧ c.minute < 60 ∧ c.second < 60

/-- The seconds from 1970-01-01T00:00:00 to the calendar time, both read on
the same clock. -/
def Civil.toUnix (c : Civil) : Int :=
  (daysBeforeYear c.year + daysBeforeMonth (leapYear c.year) c.month + ((c.day : Int) - 1)
      - daysBeforeYear 1970) * 86400
    + c.hour * 3600 + c.minute * 60 + c.second

/-- The calendar fields `Time.AppendFormat` computes from an absolute second
count, with `absDate` and `absClock`. -/
def civilOfAbs (abs : Nat) : Civil :=
  ⟨(absDate abs).1, (absDate abs).2.1, (absDate abs).2.2.1,
    (absClock abs).1, (absClock abs).2.1, (absClock abs).2.2⟩

/-- The date and time part of an RFC 3339 string, as `Time.AppendFormat`
writes it from the calendar fields. -/
def Civil.text (c : Civil) : Str :=
  appendInt c.year 4 ++ ['-'] ++ appendInt c.month 2 ++ ['-'] ++ appendInt c.day 2
    ++ ['T'] ++ appendInt c.hour 2 ++ [':'] ++ appendInt c.minute 2 ++ [':']
    ++ appendInt c.second 2

instance (c : Civil) : Decidable c.valid := by
  unfold Civil.valid
  infer_instance

/-- The absolute second count `Time.locabs` computes for a wall clock that
shows `s` seconds since 1970-01-01T00:00:00. -/
def absOfUnix (s : Int) : Nat := toUint64 (wrap64 (wrap64 s + (unixToInternal + internalToAbsolute)))

/-- The zone part of an RFC 3339 string, read as seconds east of UTC: `Z`, or
a sign, two digits of hours (below 24), a colon and two digits of minutes
(below 60). -/
def zoneSeconds (zone : Str) : Option Int :=
  match zone with
  | [z] => if z = 'Z' then some 0 else none
  | [sg, a, b, c, d, e] =>
    if (sg = '+' ∨ sg = '-') ∧ c = ':' ∧ [a, b, d, e].all isDigit = true
        ∧ digitsValue [a, b] < 24 ∧ digitsValue [d, e] < 60 then
      some ((if sg = '-' then -1 else 1) * (digitsValue [a, b] * 3600 + digitsValue [d, e] * 60))
    else none
  | _ => none

/-- The instant an RFC 3339 string with a four-digit year represents, in
seconds after the epoch: the calendar time it shows, less the zone offset it
shows.  `none` for a string of another shape or with a date or time that does
not exist. -/
def rfc3339Instant (s : Str) : Option Int :=
  match s with
  | y1 :: y2 :: y3 :: y4 :: c1 :: m1 :: m2 :: c2 :: d1 :: d2 :: c3 :: h1 :: h2 :: c4 :: n1 :: n2
      :: c5 :: s1 :: s2 :: zone =>
    if c1 = '-' ∧ c2 = '-' ∧ c3 = 'T' ∧ c4 = ':' ∧ c5 = ':'
        ∧ [y1, y2, y3, y4, m1, m2, d1, d2, h1, h2, n1, n2, s1, s2].all isDigit = true then
      let c : Civil := ⟨digitsValue [y1, y2, y3, y4], digitsValue [m1, m2], digitsValue [d1, d2],
        digitsValue [h1, h2], digitsValue [n1, n2], digitsValue [s1, s2]⟩
      if c.valid then
        match zoneSeconds zone with
        | some z => some (c.toUnix - z)
        | none => none
      else none
    else none
  | _ => none

/-! ## Further specification-side notions -/

/-- Go `errors.Unwrap`: the error a `%w` error wraps. -/
def GoError.Unwrap : GoError → Option GoError
  | .wrapError _ err => some err
  | _ => none

/-- The cases of the switch of `Options.From`, in the order of the source:
for each, the alias set it tests and the constructor it applies to the
parsed integer. -/
def inputCases : List (format × (Int → Time)) :=
  [(formatUnix, fun v => Unix v 0), (formatMilli, UnixMilli), (formatMicro, UnixMicro),
   (formatNano, fun v => Unix 0 v)]

/-- A switch like that of `Options.From`, with a given list of cases tried in
order and the same default. -/
def fromCases (env : Env) (cases : List (format × (Int → Time))) (o : Options) (text : Str) :
    Result Time :=
  match cases with
  | [] => .error .errUnsupported
  | c :: rest =>
    if c.1.Matches env.lowerTable o.FromFormat then
      match ParseInt text with
      | .error err => .error err
      | .ok v => .ok (c.2 v)
    else fromCases env rest o text

/-- The five alias sets of the program. -/
def allFormats : List format := [formatNano, formatMicro, formatMilli, formatUnix, formatRFC3339]

/-- The shape of the zone part of an RFC 3339 string: `Z`, or a sign, two
digits, a colon and two digits. -/
def zoneShape (zone : Str) : Bool :=
  match zone with
  | [z] => decide (z = 'Z')
  | [sg, a, b, c, d, e] =>
    decide ((sg = '+' ∨ sg = '-') ∧ c = ':') && [a, b, d, e].all isDigit
  | _ => false

/-- The fixed shape of an RFC 3339 string: a 4-digit year, `-`, a 2-digit
month in 01..12, `-`, a 2-digit day in 01..31, `T`, a 2-digit hour in 00..23,
`:`, a 2-digit minute and `:`, a 2-digit second, both in 00..59, then the
zone part. -/
def rfc3339Shape (s : Str) : Bool :=
  match s with
  | y1 :: y2 :: y3 :: y4 :: c1 :: m1 :: m2 :: c2 :: d1 :: d2 :: c3 :: h1 :: h2 :: c4 :: n1 :: n2
      :: c5 :: s1 :: s2 :: zone =>
    decide (c1 = '-' ∧ c2 = '-' ∧ c3 = 'T' ∧ c4 = ':' ∧ c5 = ':')
      && [y1, y2, y3, y4, m1, m2, d1, d2, h1, h2, n1, n2, s1, s2].all isDigit
      && decide (1 ≤ digitsValue [m1, m2] ∧ digitsValue [m1, m2] ≤ 12)
      && decide (1 ≤ digitsValue [d1, d2] ∧ digitsValue [d1, d2] ≤ 31)
      && decide (digitsValue [h1, h2] ≤ 23)
      && decide (digitsValue [n1, n2] ≤ 59)
      && decide (digitsValue [s1, s2] ≤ 59)
      && zoneShape zone
  | _ => false

/-- The part of the text of a calendar time that follows the year. -/
def Civil.textAfterYear (c : Civil) : Str :=
  ['-'] ++ appendInt c.month 2 ++ ['-'] ++ appendInt c.day 2
    ++ ['T'] ++ appendInt c.hour 2 ++ [':'] ++ appendInt c.minute 2 ++ [':']
    ++ appendInt c.second 2

/-! ## Lemmas on `strconv.ParseInt` -/

theorem foldl_digit_ge (ds : Str) (a : Nat) :
    a ≤ ds.foldl (fun a c => a * 10 + (c.toNat - '0'.toNat)) a := by
  induction ds generalizing a with
  | nil => simp
  | cons c rest ih =>
    simp only [List.foldl_cons]
    exact le_trans (by omega) (ih _)

theorem parseUintLoop_digits (ds : Str) (n : Nat) (hd : ds.all isDigit = true)
    (hv : ds.foldl (fun a c => a * 10 + (c.toNat - '0'.toNat)) n < 2 ^ 64) :
    parseUintLoop ds n = (ds.foldl (fun a c => a * 10 + (c.toNat - '0'.toNat)) n, none) := by
  induction ds generalizing n with
  | nil => simp [parseUintLoop]
  | cons c rest ih =>
    simp only [List.all_cons, Bool.and_eq_true] at hd
    simp only [List.foldl_cons] at hv ⊢
    have hge := foldl_digit_ge rest (n * 10 + (c.toNat - '0'.toNat))
    have hc : '0'.toNat ≤ c.toNat ∧ c.toNat ≤ '9'.toNat := by simpa [isDigit] using hd.1
    have h1 : n * 10 + (c.toNat - '0'.toNat) < 2 ^ 64 := lt_of_le_of_lt hge hv
    have h10 : (n * 10) % 2 ^ 64 = n * 10 := Nat.mod_eq_of_lt (by omega)
    have h11 : (n * 10 + (c.toNat - '0'.toNat)) % 2 ^ 64 = n * 10 + (c.toNat - '0'.toNat) :=
      Nat.mod_eq_of_lt h1
    rw [parseUintLoop]
    simp only [hc, and_self, if_true, h10, h11]
    have hcut : ¬ (n ≥ maxUint64 / 10 + 1) := by
      simp only [maxUint64]; omega
    have hno : ¬ (n * 10 + (c.toNat - '0'.toNat) < n * 10 ∨
        n * 10 + (c.toNat - '0'.toNat) > maxUint64) := by
      simp only [maxUint64]; omega
    simp only [hcut, hno, if_false]
    exact ih _ hd.2 hv

theorem parseUintLoop_overflow (ds : Str) (n : Nat) (hn : n < 2 ^ 64)
    (hd : ds.all isDigit = true)
    (hv : ¬ ds.foldl (fun a c => a * 10 + (c.toNat - '0'.toNat)) n < 2 ^ 64) :
    parseUintLoop ds n = (maxUint64, some .ErrRange) := by
  induction ds generalizing n with
  | nil => simp at hv; omega
  | cons c rest ih =>
    simp only [List.all_cons, Bool.and_eq_true] at hd
    simp only [List.foldl_cons] at hv
    have hc : '0'.toNat ≤ c.toNat ∧ c.toNat ≤ '9'.toNat := by simpa [isDigit] using hd.1
    rw [parseUintLoop]
    simp only [hc, and_self, if_true]
    by_cases hcut : n ≥ maxUint64 / 10 + 1
    · simp [hcut]
    · simp only [hcut, if_false]
      have h10 : (n * 10) % 2 ^ 64 = n * 10 := Nat.mod_eq_of_lt (by
        simp only [maxUint64] at hcut; omega)
      simp only [h10]
      by_cases h1 : n * 10 + (c.toNat - '0'.toNat) < 2 ^ 64
      · have h11 : (n * 10 + (c.toNat - '0'.toNat)) % 2 ^ 64
            = n * 10 + (c.toNat - '0'.toNat) := Nat.mod_eq_of_lt h1
        have hno : ¬ (n * 10 + (c.toNat - '0'.toNat) < n * 10 ∨
            n * 10 + (c.toNat - '0'.toNat) > maxUint64) := by
          simp only [maxUint64]; omega
        simp only [h11, hno, if_false]
        exact ih _ h1 hd.2 hv
      · have hlt : (n * 10 + (c.toNat - '0'.toNat)) % 2 ^ 64 < n * 10 := by
          have hd9 : c.toNat - '0'.toNat ≤ 9 := by
            have : '9'.toNat = 57 := by decide
            have : '0'.toNat = 48 := by decide
            omega
          simp only [maxUint64] at hcut
          omega
        rw [if_pos (Or.inl hlt)]

/-- A string with a character that is not a digit never parses: the loop
ends in an error. -/
theorem parseUintLoop_nondigit (ds : Str) (n : Nat) (hd : ds.all isDigit = false) :
    parseUintLoop ds n = (0, some .ErrSyntax) ∨ parseUintLoop ds n = (maxUint64, some .ErrRange) := by
  induction ds generalizing n with
  | nil => simp at hd
  | cons c rest ih =>
    rw [parseUintLoop]
    by_cases hc : '0'.toNat ≤ c.toNat ∧ c.toNat ≤ '9'.toNat
    · have hrest : rest.all isDigit = false := by
        have : isDigit c = true := by simpa [isDigit] using hc
        simpa [List.all_cons, this] using hd
      simp only [hc, and_self, if_true]
      split
      · exact Or.inr rfl
      · split
        · exact Or.inr rfl
        · exact ih _ hrest
    · rw [if_neg hc]
      exact Or.inl rfl

theorem ParseUint_digits (s : Str) (hs : s ≠ []) (hd : s.all isDigit = true)
    (hv : digitsValue s < 2 ^ 64) : ParseUint s = (digitsValue s, none) := by
  unfold ParseUint
  rw [if_neg hs]
  exact parseUintLoop_digits s 0 hd hv

theorem ParseUint_overflow (s : Str) (hs : s ≠ []) (hd : s.all isDigit = true)
    (hv : ¬ digitsValue s < 2 ^ 64) : ParseUint s = (maxUint64, some .ErrRange) := by
  unfold ParseUint
  rw [if_neg hs]
  exact parseUintLoop_overflow s 0 (by norm_num) hd hv

theorem ParseUint_malformed (s : Str) (h : s = [] ∨ s.all isDigit = false) :
    ParseUint s = (0, some .ErrSyntax) ∨ ParseUint s = (maxUint64, some .ErrRange) := by
  unfold ParseUint
  by_cases hs : s = []
  · rw [if_pos hs]; exact Or.inl rfl
  · rw [if_neg hs]
    rcases h with h | h
    · exact absurd h hs
    · exact parseUintLoop_nondigit s 0 h

/-- What `ParseInt` does after the sign is picked off, as a function of the
result of `ParseUint`. -/
theorem ParseInt_cons (c : Char) (rest : Str) :
    ParseInt (c :: rest) =
      (let neg := decide (c = '-')
       let r := ParseUint (if c = '+' ∨ c = '-' then rest else c :: rest)
       if r.2 = some .ErrSyntax then .error (.numError fnParseInt (c :: rest) .ErrSyntax)
       else if neg = false ∧ r.1 ≥ 2 ^ 63 then .error (.numError fnParseInt (c :: rest) .ErrRange)
       else if neg = true ∧ r.1 > 2 ^ 63 then .error (.numError fnParseInt (c :: rest) .ErrRange)
       else .ok (if neg then wrap64 (-(wrap64 r.1)) else wrap64 r.1)) := rfl

theorem wrap64_of_range (x : Int) (h1 : -(2 ^ 63) ≤ x) (h2 : x < 2 ^ 63) : wrap64 x = x := by
  unfold wrap64
  omega

theorem wrap64_range (x : Int) : -(2 ^ 63) ≤ wrap64 x ∧ wrap64 x < 2 ^ 63 := by
  unfold wrap64
  omega

/-- The magnitude part of `ParseInt`: outcome for a negative sign flag and a
digit string. -/
theorem ParseInt_magnitude (s : Str) (body : Str) (neg : Bool) :
    (let r := ParseUint body
     (if r.2 = some NumErrKind.ErrSyntax then Result.error (.numError fnParseInt s .ErrSyntax)
       else if neg = false ∧ r.1 ≥ 2 ^ 63 then .error (.numError fnParseInt s .ErrRange)
       else if neg = true ∧ r.1 > 2 ^ 63 then .error (.numError fnParseInt s .ErrRange)
       else .ok (if neg then wrap64 (-(wrap64 r.1)) else wrap64 r.1)))
    = (if body ≠ [] ∧ body.all isDigit = true ∧
          (if neg then (digitsValue body : Int) ≤ 2 ^ 63 else (digitsValue body : Int) < 2 ^ 63)
        then .ok (if neg then -(digitsValue body : Int) else (digitsValue body : Int))
        else if body ≠ [] ∧ body.all isDigit = true then .error (.numError fnParseInt s .ErrRange)
        else if (ParseUint body).2 = some .ErrSyntax
          then .error (.numError fnParseInt s .ErrSyntax)
          else .error (.numError fnParseInt s .ErrRange)) := by
  by_cases hb : body ≠ [] ∧ body.all isDigit = true
  · obtain ⟨hs, hd⟩ := hb
    have hw : ∀ x : Nat, x < 2 ^ 63 → wrap64 (x : Int) = x := fun x hx =>
      wrap64_of_range _ (by omega) (by omega)
    have hwn : ∀ x : Nat, x ≤ 2 ^ 63 → wrap64 (-(wrap64 (x : Int))) = -(x : Int) := by
      intro x hx
      unfold wrap64
      omega
    by_cases hv : digitsValue body < 2 ^ 64
    · rw [ParseUint_digits body hs hd hv]
      cases neg
      · by_cases h63 : digitsValue body < 2 ^ 63
        · have h1 : ¬ (false = false ∧ digitsValue body ≥ 2 ^ 63) := by omega
          have h2 : ¬ (false = true ∧ digitsValue body > 2 ^ 63) := by simp
          have h3 : body ≠ [] ∧ body.all isDigit = true ∧
              (if false = true then (digitsValue body : Int) ≤ 2 ^ 63
                else (digitsValue body : Int) < 2 ^ 63) := by
            refine ⟨hs, hd, ?_⟩
            rw [if_neg (by simp)]; omega
          show (if (none : Option NumErrKind) = some NumErrKind.ErrSyntax then _ else _) = _
          rw [if_neg (by simp), if_neg h1, if_neg h2, if_pos h3, if_neg (by simp),
            if_neg (by simp), hw _ h63]
        · have h1 : (false = false ∧ digitsValue body ≥ 2 ^ 63) := ⟨rfl, by omega⟩
          have h3 : ¬ (body ≠ [] ∧ body.all isDigit = true ∧
              (if false = true then (digitsValue body : Int) ≤ 2 ^ 63
                else (digitsValue body : Int) < 2 ^ 63)) := by
            rintro ⟨_, _, h⟩
            rw [if_neg (by simp)] at h; omega
          show (if (none : Option NumErrKind) = some NumErrKind.ErrSyntax then _ else _) = _
          rw [if_neg (by simp), if_pos h1, if_neg h3, if_pos ⟨hs, hd⟩]
      · by_cases h63 : digitsValue body ≤ 2 ^ 63
        · have h1 : ¬ (true = false ∧ digitsValue body ≥ 2 ^ 63) := by simp
          have h2 : ¬ (true = true ∧ digitsValue body > 2 ^ 63) := by omega
          have h3 : body ≠ [] ∧ body.all isDigit = true ∧
              (if true = true then (digitsValue body : Int) ≤ 2 ^ 63
                else (digitsValue body : Int) < 2 ^ 63) := by
            refine ⟨hs, hd, ?_⟩
            rw [if_pos rfl]; omega
          show (if (none : Option NumErrKind) = some NumErrKind.ErrSyntax then _ else _) = _
          rw [if_neg (by simp), if_neg h1, if_neg h2, if_pos h3, if_pos rfl, if_pos rfl,
            hwn _ h63]
        · have h1 : ¬ (true = false ∧ digitsValue body ≥ 2 ^ 63) := by simp
          have h2 : (true = true ∧ digitsValue body > 2 ^ 63) := ⟨rfl, by omega⟩
          have h3 : ¬ (body ≠ [] ∧ body.all isDigit = true ∧
              (if true = true then (digitsValue body : Int) ≤ 2 ^ 63
                else (digitsValue body : Int) < 2 ^ 63)) := by
            rintro ⟨_, _, h⟩
            rw [if_pos rfl] at h; omega
          show (if (none : Option NumErrKind) = some NumErrKind.ErrSyntax then _ else _) = _
          rw [if_neg (by simp), if_neg h1, if_pos h2, if_neg h3, if_pos ⟨hs, hd⟩]
    · rw [ParseUint_overflow body hs hd hv]
      have hbig : ¬ digitsValue body < 9223372036854775808 := by omega
      have hbig2 : ¬ digitsValue body ≤ 9223372036854775808 := by omega
      cases neg <;> simp [hs, hd, maxUint64, hbig, hbig2]
  · have hm : body = [] ∨ body.all isDigit = false := by
      by_cases hs : body = []
      · exact Or.inl hs
      · right
        cases hall : body.all isDigit
        · rfl
        · exact absurd ⟨hs, hall⟩ hb
    have hb2 : ¬ (body ≠ [] ∧ body.all isDigit = true ∧
        (if neg then (digitsValue body : Int) ≤ 2 ^ 63 else (digitsValue body : Int) < 2 ^ 63)) :=
      fun h => hb ⟨h.1, h.2.1⟩
    rw [if_neg hb2, if_neg hb]
    rcases ParseUint_malformed body hm with h | h
    · rw [h]; simp
    · rw [h]; cases neg <;> simp [maxUint64]

/-- The part of a signed decimal after its sign. -/
theorem isSignedDecimal_cons (c : Char) (rest : Str) :
    isSignedDecimal (c :: rest) = true ↔
      (if c = '+' ∨ c = '-' then rest else c :: rest) ≠ [] ∧
        (if c = '+' ∨ c = '-' then rest else c :: rest).all isDigit = true := by
  by_cases h : c = '+' ∨ c = '-'
  · simp only [isSignedDecimal, h, if_true, Bool.and_eq_true, Bool.not_eq_true',
      List.isEmpty_eq_false, ne_eq]
  · simp only [isSignedDecimal, h, if_false, ne_eq, reduceCtorEq, not_false_eq_true, true_and]

theorem decimalValue_cons (c : Char) (rest : Str) :
    decimalValue (c :: rest) =
      if decide (c = '-') = true then
        -(digitsValue (if c = '+' ∨ c = '-' then rest else c :: rest) : Int)
      else (digitsValue (if c = '+' ∨ c = '-' then rest else c :: rest) : Int) := by
  by_cases hm : c = '-'
  · subst hm; simp [decimalValue]
  · by_cases hp : c = '+'
    · subst hp; simp [decimalValue]
    · simp [decimalValue, hm, hp]

theorem ParseInt_eq (c : Char) (rest : Str) :
    ParseInt (c :: rest) =
      (if (if c = '+' ∨ c = '-' then rest else c :: rest) ≠ [] ∧
          (if c = '+' ∨ c = '-' then rest else c :: rest).all isDigit = true ∧
          (if decide (c = '-') = true
            then (digitsValue (if c = '+' ∨ c = '-' then rest else c :: rest) : Int) ≤ 2 ^ 63
            else (digitsValue (if c = '+' ∨ c = '-' then rest else c :: rest) : Int) < 2 ^ 63)
        then .ok (if decide (c = '-') = true
          then -(digitsValue (if c = '+' ∨ c = '-' then rest else c :: rest) : Int)
          else (digitsValue (if c = '+' ∨ c = '-' then rest else c :: rest) : Int))
        else if (if c = '+' ∨ c = '-' then rest else c :: rest) ≠ [] ∧
            (if c = '+' ∨ c = '-' then rest else c :: rest).all isDigit = true
          then .error (.numError fnParseInt (c :: rest) .ErrRange)
        else if (ParseUint (if c = '+' ∨ c = '-' then rest else c :: rest)).2 = some .ErrSyntax
          then .error (.numError fnParseInt (c :: rest) .ErrSyntax)
          else .error (.numError fnParseInt (c :: rest) .ErrRange)) := by
  rw [ParseInt_cons]
  exact ParseInt_magnitude (c :: rest) _ _

/-- `ParseInt` succeeds on a valid signed decimal that fits in 64 bits, and
returns its value. -/
theorem ParseInt_valid (s : Str) (hs : isSignedDecimal s = true)
    (h1 : minInt64 ≤ decimalValue s) (h2 : decimalValue s ≤ maxInt64) :
    ParseInt s = .ok (decimalValue s) := by
  cases s with
  | nil => simp [isSignedDecimal] at hs
  | cons c rest =>
    rw [isSignedDecimal_cons] at hs
    rw [decimalValue_cons] at h1 h2 ⊢
    simp only [minInt64, maxInt64] at h1 h2
    rw [ParseInt_eq, if_pos]
    refine ⟨hs.1, hs.2, ?_⟩
    split
    · rename_i hn; rw [if_pos hn] at h1; omega
    · rename_i hn; rw [if_neg hn] at h2; omega

/-- Whenever the text is not a valid signed decimal that fits in 64 bits,
`ParseInt` returns a `*NumError` that carries the text. -/
theorem ParseInt_invalid (s : Str)
    (h : ¬ (isSignedDecimal s = true ∧ minInt64 ≤ decimalValue s ∧ decimalValue s ≤ maxInt64)) :
    ∃ k, ParseInt s = .error (.numError fnParseInt s k) := by
  cases s with
  | nil => exact ⟨.ErrSyntax, rfl⟩
  | cons c rest =>
    rw [isSignedDecimal_cons, decimalValue_cons] at h
    simp only [minInt64, maxInt64] at h
    rw [ParseInt_eq, if_neg]
    · split_ifs <;> exact ⟨_, rfl⟩
    · rintro ⟨a, b, c⟩
      apply h
      refine ⟨⟨a, b⟩, ?_⟩
      split
      · rename_i hn; rw [if_pos hn] at c; omega
      · rename_i hn; rw [if_neg hn] at c; omega

/-- `ParseInt` returns a value exactly on the valid signed decimals that fit
in 64 bits. -/
theorem ParseInt_ok_iff (s : Str) (v : Int) :
    ParseInt s = .ok v ↔
      isSignedDecimal s = true ∧ minInt64 ≤ decimalValue s ∧ decimalValue s ≤ maxInt64
        ∧ decimalValue s = v := by
  constructor
  · intro h
    by_cases hv : isSignedDecimal s = true ∧ minInt64 ≤ decimalValue s ∧ decimalValue s ≤ maxInt64
    · have := ParseInt_valid s hv.1 hv.2.1 hv.2.2
      rw [h] at this
      exact ⟨hv.1, hv.2.1, hv.2.2, (Result.ok.inj this).symm⟩
    · obtain ⟨k, hk⟩ := ParseInt_invalid s hv
      rw [hk] at h
      exact absurd h (by simp)
  · rintro ⟨a, b, c, d⟩
    rw [← d]
    exact ParseInt_valid s a b c

/-! ## The decimal text of an integer -/

theorem digitChar_toNat (d : Nat) (h : d < 10) : (Char.ofNat ('0'.toNat + d)).toNat = 48 + d := by
  interval_cases d <;> rfl

theorem isDigit_digitChar (d : Nat) (h : d < 10) : isDigit (Char.ofNat ('0'.toNat + d)) = true := by
  interval_cases d <;> rfl

theorem foldr_digits (L : List Nat) :
    L.foldr (fun d a => a * 10 + d) 0 = Nat.ofDigits 10 L := by
  induction L with
  | nil => simp
  | cons d L ih =>
    simp only [List.foldr_cons, Nat.ofDigits_cons, ih]
    ring

theorem digitsValue_map (L : List Nat) (hL : ∀ d ∈ L, d < 10) :
    digitsValue (L.reverse.map (fun d => Char.ofNat ('0'.toNat + d))) = Nat.ofDigits 10 L := by
  unfold digitsValue
  rw [List.foldl_map, List.foldl_reverse, ← foldr_digits]
  induction L with
  | nil => rfl
  | cons d L ih =>
    simp only [List.foldr_cons]
    rw [ih (fun x hx => hL x (List.mem_cons_of_mem _ hx))]
    rw [digitChar_toNat d (hL d (List.mem_cons_self _ _))]
    have : '0'.toNat = 48 := rfl
    omega

theorem natText_all_digits (m : Nat) : (natText m).all isDigit = true := by
  unfold natText
  split
  · rfl
  · simp only [List.all_eq_true, List.mem_map, List.mem_reverse]
    rintro c ⟨d, hd, rfl⟩
    exact isDigit_digitChar d (Nat.digits_lt_base (by norm_num) hd)

theorem natText_ne_nil (m : Nat) : natText m ≠ [] := by
  unfold natText
  split
  · simp
  · rename_i h
    simp only [ne_eq, List.map_eq_nil_iff, List.reverse_eq_nil_iff]
    exact Nat.digits_ne_nil_iff_ne_zero.mpr h

theorem digitsValue_natText (m : Nat) : digitsValue (natText m) = m := by
  unfold natText
  split
  · rename_i h; subst h; rfl
  · rw [digitsValue_map _ (fun d hd => Nat.digits_lt_base (by norm_num) hd)]
    exact Nat.ofDigits_digits 10 m

theorem isDigit_ne_sign (c : Char) (h : isDigit c = true) : ¬ (c = '+' ∨ c = '-') := by
  rintro (rfl | rfl) <;> simp [isDigit] at h

theorem natText_head (m : Nat) : ∃ c rest, natText m = c :: rest ∧ isDigit c = true := by
  have h1 := natText_ne_nil m
  have h2 := natText_all_digits m
  cases h : natText m with
  | nil => exact absurd h h1
  | cons c rest =>
    rw [h] at h2
    simp only [List.all_cons, Bool.and_eq_true] at h2
    exact ⟨c, rest, rfl, h2.1⟩

theorem isSignedDecimal_decimalText (n : Int) : isSignedDecimal (decimalText n) = true := by
  unfold decimalText
  split
  · rw [isSignedDecimal_cons]
    simp only [or_true, if_true]
    exact ⟨natText_ne_nil _, natText_all_digits _⟩
  · obtain ⟨c, rest, hc, hd⟩ := natText_head n.natAbs
    rw [hc, isSignedDecimal_cons, if_neg (isDigit_ne_sign c hd), ← hc]
    exact ⟨natText_ne_nil _, natText_all_digits _⟩

theorem decimalValue_decimalText (n : Int) : decimalValue (decimalText n) = n := by
  unfold decimalText
  split
  · rw [decimalValue_cons]
    simp only [decide_True, if_true, or_true, digitsValue_natText]
    omega
  · obtain ⟨c, rest, hc, hd⟩ := natText_head n.natAbs
    have hs := isDigit_ne_sign c hd
    rw [hc, decimalValue_cons, if_neg hs, ← hc, digitsValue_natText]
    have : ¬ (decide (c = '-') = true) := by
      simp only [decide_eq_true_eq]; tauto
    rw [if_neg this]
    omega

/-- `ParseInt` reads back the decimal text of every 64-bit integer. -/
theorem ParseInt_decimalText (n : Int) (h1 : minInt64 ≤ n) (h2 : n ≤ maxInt64) :
    ParseInt (decimalText n) = .ok n := by
  have := ParseInt_valid (decimalText n) (isSignedDecimal_decimalText n)
    (by rw [decimalValue_decimalText]; exact h1) (by rw [decimalValue_decimalText]; exact h2)
  rw [decimalValue_decimalText] at this
  exact this


/-! ## Lemmas on `format.Matches` -/

theorem Matches_iff (table : Char → Char) (f : format) (v : Str) :
    f.Matches table v = true ↔ normalize table v ∈ f := by
  unfold format.Matches normalize
  simp only [List.any_eq_true, decide_eq_true_eq]
  constructor
  · rintro ⟨e, he, rfl⟩; exact he
  · intro h; exact ⟨_, h, rfl⟩

theorem Matches_eq_decide (table : Char → Char) (f : format) (v : Str) :
    f.Matches table v = decide (normalize table v ∈ f) := by
  cases h : f.Matches table v
  · symm
    rw [decide_eq_false_iff_not, ← Matches_iff, h]
    simp
  · symm
    rw [decide_eq_true_iff, ← Matches_iff, h]

/-- An identifier matches at most one of the four input alias sets. -/
theorem input_rules_disjoint (table : Char → Char) (v : Str) :
    (formatMilli.Matches table v = true → formatUnix.Matches table v = false) ∧
    (formatMicro.Matches table v = true →
      formatUnix.Matches table v = false ∧ formatMilli.Matches table v = false) ∧
    (formatNano.Matches table v = true →
      formatUnix.Matches table v = false ∧ formatMilli.Matches table v = false
        ∧ formatMicro.Matches table v = false) := by
  simp only [Matches_eq_decide]
  generalize normalize table v = w
  refine ⟨?_, ?_, ?_⟩
  · intro h
    rw [decide_eq_true_iff] at h
    simp only [formatMilli, List.mem_cons, List.mem_singleton, List.not_mem_nil, or_false] at h
    rcases h with rfl | rfl <;> decide
  · intro h
    rw [decide_eq_true_iff] at h
    simp only [formatMicro, List.mem_cons, List.mem_singleton, List.not_mem_nil, or_false] at h
    rcases h with rfl | rfl <;> decide
  · intro h
    rw [decide_eq_true_iff] at h
    simp only [formatNano, List.mem_cons, List.mem_singleton, List.not_mem_nil, or_false] at h
    rcases h with rfl | rfl <;> decide

/-! ## Lemmas on `time.Unix` -/

theorem tdiv_cases (a b : Int) (hb : 0 < b) :
    (0 ≤ a ∧ a.tdiv b = a / b) ∨ (a < 0 ∧ a.tdiv b = -((-a) / b)) := by
  by_cases ha : 0 ≤ a
  · exact Or.inl ⟨ha, Int.tdiv_eq_ediv ha (le_of_lt hb)⟩
  · right
    refine ⟨by omega, ?_⟩
    have h : a = -(-a) := by omega
    rw [h, Int.neg_tdiv, Int.tdiv_eq_ediv (by omega) (le_of_lt hb)]
    simp

theorem unixTime_unixSec (sec nsec : Int) (hs1 : -(2 ^ 63) ≤ sec) (hs2 : sec < 2 ^ 63)
    (hn1 : 0 ≤ nsec) (hn2 : nsec < 1000000000) :
    (unixTime sec nsec).unixSec = sec ∧ (unixTime sec nsec).nsec = nsec := by
  have hw : toUint64 nsec = nsec.toNat := by
    unfold toUint64
    congr 1
    omega
  have hlt : nsec.toNat < 1000000000 := by omega
  constructor
  · unfold Time.unixSec Time.sec unixTime
    simp only [hw]
    have h0 : nsec.toNat / 2 ^ 63 % 2 = 0 := by omega
    simp only [h0, ne_eq, not_true_eq_false, if_false]
    unfold wrap64 internalToUnix unixToInternal secondsPerDay secondsPerHour secondsPerMinute
    omega
  · unfold Time.nsec unixTime
    simp only [hw]
    omega

/-- The instant of `time.Unix(sec, nsec)`, read back through `Time.Unix` and
`Time.Nanosecond`, is `sec` seconds and `nsec` nanoseconds after the epoch,
whenever the carried second count stays in 64 bits. -/
theorem Unix_epochNanos (sec nsec : Int) (hs1 : -(2 ^ 63) + 2 ^ 34 ≤ sec)
    (hs2 : sec < 2 ^ 63 - 2 ^ 34) (hn1 : -(2 ^ 63) ≤ nsec) (hn2 : nsec < 2 ^ 63) :
    (Unix sec nsec).epochNanos = sec * 1000000000 + nsec := by
  unfold Time.epochNanos Unix
  split
  · rcases tdiv_cases nsec 1000000000 (by norm_num) with ⟨h0, hq⟩ | ⟨h0, hq⟩
    · rw [hq]
      dsimp only
      have e1 : wrap64 (sec + nsec / 1000000000) = sec + nsec / 1000000000 :=
        wrap64_of_range _ (by omega) (by omega)
      have e2 : wrap64 (nsec / 1000000000 * 1000000000) = nsec / 1000000000 * 1000000000 :=
        wrap64_of_range _ (by omega) (by omega)
      have e3 : wrap64 (nsec - nsec / 1000000000 * 1000000000)
          = nsec - nsec / 1000000000 * 1000000000 := wrap64_of_range _ (by omega) (by omega)
      rw [e1, e2, e3]
      rw [if_neg (by omega)]
      have e4 : wrap32 (nsec - nsec / 1000000000 * 1000000000)
          = nsec - nsec / 1000000000 * 1000000000 := by unfold wrap32; omega
      rw [e4]
      obtain ⟨a, b⟩ := unixTime_unixSec (sec + nsec / 1000000000)
        (nsec - nsec / 1000000000 * 1000000000) (by omega) (by omega) (by omega) (by omega)
      rw [a, b]
      omega
    · rw [hq]
      dsimp only
      have e1 : wrap64 (sec + -(-nsec / 1000000000)) = sec + -(-nsec / 1000000000) :=
        wrap64_of_range _ (by omega) (by omega)
      have e2 : wrap64 (-(-nsec / 1000000000) * 1000000000)
          = -(-nsec / 1000000000) * 1000000000 := wrap64_of_range _ (by omega) (by omega)
      have e3 : wrap64 (nsec - -(-nsec / 1000000000) * 1000000000)
          = nsec - -(-nsec / 1000000000) * 1000000000 := wrap64_of_range _ (by omega) (by omega)
      rw [e1, e2, e3]
      split
      · have e5 : wrap64 (sec + -(-nsec / 1000000000) - 1) = sec + -(-nsec / 1000000000) - 1 :=
          wrap64_of_range _ (by omega) (by omega)
        have e6 : wrap64 (nsec - -(-nsec / 1000000000) * 1000000000 + 1000000000)
            = nsec - -(-nsec / 1000000000) * 1000000000 + 1000000000 :=
          wrap64_of_range _ (by omega) (by omega)
        rw [e5, e6]
        have e4 : wrap32 (nsec - -(-nsec / 1000000000) * 1000000000 + 1000000000)
            = nsec - -(-nsec / 1000000000) * 1000000000 + 1000000000 := by unfold wrap32; omega
        rw [e4]
        obtain ⟨a, b⟩ := unixTime_unixSec (sec + -(-nsec / 1000000000) - 1)
          (nsec - -(-nsec / 1000000000) * 1000000000 + 1000000000)
          (by omega) (by omega) (by omega) (by omega)
        rw [a, b]
        omega
      · have e4 : wrap32 (nsec - -(-nsec / 1000000000) * 1000000000)
            = nsec - -(-nsec / 1000000000) * 1000000000 := by unfold wrap32; omega
        rw [e4]
        obtain ⟨a, b⟩ := unixTime_unixSec (sec + -(-nsec / 1000000000))
          (nsec - -(-nsec / 1000000000) * 1000000000)
          (by omega) (by omega) (by omega) (by omega)
        rw [a, b]
        omega
  · have e4 : wrap32 nsec = nsec := by unfold wrap32; omega
    rw [e4]
    obtain ⟨a, b⟩ := unixTime_unixSec sec nsec (by omega) (by omega) (by omega) (by omega)
    rw [a, b]

/-- The same for a nanosecond count already in `[0, 1e9)`: every 64-bit
second count is kept. -/
theorem Unix_epochNanos_small (sec nsec : Int) (hs1 : -(2 ^ 63) ≤ sec) (hs2 : sec < 2 ^ 63)
    (hn1 : 0 ≤ nsec) (hn2 : nsec < 1000000000) :
    (Unix sec nsec).epochNanos = sec * 1000000000 + nsec := by
  unfold Time.epochNanos Unix
  rw [if_neg (by omega)]
  have e4 : wrap32 nsec = nsec := by unfold wrap32; omega
  rw [e4]
  obtain ⟨a, b⟩ := unixTime_unixSec sec nsec hs1 hs2 hn1 hn2
  rw [a, b]

theorem UnixMilli_epochNanos (msec : Int) (h1 : -(2 ^ 63) ≤ msec) (h2 : msec < 2 ^ 63) :
    (UnixMilli msec).epochNanos = msec * 1000000 := by
  unfold UnixMilli
  rw [Int.tmod_def]
  rcases tdiv_cases msec 1000 (by norm_num) with ⟨h0, hq⟩ | ⟨h0, hq⟩
  · rw [hq]
    rw [wrap64_of_range _ (by omega) (by omega)]
    rw [Unix_epochNanos _ _ (by omega) (by omega) (by omega) (by omega)]
    omega
  · rw [hq]
    rw [wrap64_of_range _ (by omega) (by omega)]
    rw [Unix_epochNanos _ _ (by omega) (by omega) (by omega) (by omega)]
    omega

theorem UnixMicro_epochNanos (usec : Int) (h1 : -(2 ^ 63) ≤ usec) (h2 : usec < 2 ^ 63) :
    (UnixMicro usec).epochNanos = usec * 1000 := by
  unfold UnixMicro
  rw [Int.tmod_def]
  rcases tdiv_cases usec 1000000 (by norm_num) with ⟨h0, hq⟩ | ⟨h0, hq⟩
  · rw [hq]
    rw [wrap64_of_range _ (by omega) (by omega)]
    rw [Unix_epochNanos _ _ (by omega) (by omega) (by omega) (by omega)]
    omega
  · rw [hq]
    rw [wrap64_of_range _ (by omega) (by omega)]
    rw [Unix_epochNanos _ _ (by omega) (by omega) (by omega) (by omega)]
    omega

/-! ## `Options.From`, rule by rule -/

theorem From_unix (env : Env) (o : Options) (text : Str)
    (h : formatUnix.Matches env.lowerTable o.FromFormat = true) :
    o.From env text =
      match ParseInt text with
      | .error err => .error err
      | .ok v => .ok (Unix v 0) := by
  unfold Options.From
  rw [if_pos h]

theorem From_milli (env : Env) (o : Options) (text : Str)
    (h : formatMilli.Matches env.lowerTable o.FromFormat = true) :
    o.From env text =
      match ParseInt text with
      | .error err => .error err
      | .ok v => .ok (UnixMilli v) := by
  unfold Options.From
  have := (input_rules_disjoint env.lowerTable o.FromFormat).1 h
  rw [if_neg (by simp [this]), if_pos h]

theorem From_micro (env : Env) (o : Options) (text : Str)
    (h : formatMicro.Matches env.lowerTable o.FromFormat = true) :
    o.From env text =
      match ParseInt text with
      | .error err => .error err
      | .ok v => .ok (UnixMicro v) := by
  unfold Options.From
  have := (input_rules_disjoint env.lowerTable o.FromFormat).2.1 h
  rw [if_neg (by simp [this.1]), if_neg (by simp [this.2]), if_pos h]

theorem From_nano (env : Env) (o : Options) (text : Str)
    (h : formatNano.Matches env.lowerTable o.FromFormat = true) :
    o.From env text =
      match ParseInt text with
      | .error err => .error err
      | .ok v => .ok (Unix 0 v) := by
  unfold Options.From
  have := (input_rules_disjoint env.lowerTable o.FromFormat).2.2 h
  rw [if_neg (by simp [this.1]), if_neg (by simp [this.2.1]), if_neg (by simp [this.2.2]),
    if_pos h]

theorem From_unmatched (env : Env) (o : Options) (text : Str)
    (h1 : formatUnix.Matches env.lowerTable o.FromFormat = false)
    (h2 : formatMilli.Matches env.lowerTable o.FromFormat = false)
    (h3 : formatMicro.Matches env.lowerTable o.FromFormat = false)
    (h4 : formatNano.Matches env.lowerTable o.FromFormat = false) :
    o.From env text = .error .errUnsupported := by
  unfold Options.From
  rw [if_neg (by simp [h1]), if_neg (by simp [h2]), if_neg (by simp [h3]), if_neg (by simp [h4])]

/-- C1. For every signed 64-bit integer `n` and each of the four input rules,
`Options.From` applied to the decimal text of `n` succeeds, and the instant
it returns lies exactly `n` units after the epoch: read back through
`Time.Unix` and `Time.Nanosecond`, its offset in nanoseconds is the
mathematical integer `n*10^9` (unix, sec, secs), `n*10^6` (milli, millis),
`n*10^3` (micro, micros) and `n` (nano, nanos). -/
theorem From_decimalText_exact (env : Env) (o : Options) (n : Int)
    (h1 : minInt64 ≤ n) (h2 : n ≤ maxInt64) :
    (formatUnix.Matches env.lowerTable o.FromFormat = true →
      ∃ t, o.From env (decimalText n) = .ok t ∧ t.epochNanos = n * 10 ^ 9) ∧
    (formatMilli.Matches env.lowerTable o.FromFormat = true →
      ∃ t, o.From env (decimalText n) = .ok t ∧ t.epochNanos = n * 10 ^ 6) ∧
    (formatMicro.Matches env.lowerTable o.FromFormat = true →
      ∃ t, o.From env (decimalText n) = .ok t ∧ t.epochNanos = n * 10 ^ 3) ∧
    (formatNano.Matches env.lowerTable o.FromFormat = true →
      ∃ t, o.From env (decimalText n) = .ok t ∧ t.epochNanos = n) := by
  have hp := ParseInt_decimalText n h1 h2
  simp only [minInt64, maxInt64] at h1 h2
  refine ⟨?_, ?_, ?_, ?_⟩
  · intro h
    refine ⟨Unix n 0, ?_, ?_⟩
    · rw [From_unix env o _ h, hp]
    · rw [Unix_epochNanos_small n 0 (by omega) (by omega) (by omega) (by omega)]
      omega
  · intro h
    refine ⟨UnixMilli n, ?_, ?_⟩
    · rw [From_milli env o _ h, hp]
    · rw [UnixMilli_epochNanos n (by omega) (by omega)]
      omega
  · intro h
    refine ⟨UnixMicro n, ?_, ?_⟩
    · rw [From_micro env o _ h, hp]
    · rw [UnixMicro_epochNanos n (by omega) (by omega)]
      omega
  · intro h
    refine ⟨Unix 0 n, ?_, ?_⟩
    · rw [From_nano env o _ h, hp]
    · rw [Unix_epochNanos 0 n (by omega) (by omega) (by omega) (by omega)]
      omega

theorem From_decimalText_exact_witness :
    ∃ t, Options.From utcEnv ⟨"millis".toList, "rfc3339".toList, false, []⟩ (decimalText (-1500))
        = .ok t ∧ t.epochNanos = -1500 * 10 ^ 6 :=
  (From_decimalText_exact utcEnv ⟨"millis".toList, "rfc3339".toList, false, []⟩ (-1500)
    (by decide) (by decide)).2.1 (by decide)

/-- On a recognised input format, `Options.From` is `ParseInt` followed by
the constructor of the rule, so it fails exactly when `ParseInt` does, with
the same error. -/
theorem From_matched (env : Env) (o : Options) (text : Str)
    (hm : matchesInputRule env.lowerTable o.FromFormat = true) :
    ∃ mk : Int → Time, o.From env text =
      match ParseInt text with
      | .error err => .error err
      | .ok v => .ok (mk v) := by
  unfold matchesInputRule at hm
  simp only [Bool.or_eq_true] at hm
  rcases hm with ((h | h) | h) | h
  · exact ⟨fun v => Unix v 0, From_unix env o text h⟩
  · exact ⟨UnixMilli, From_milli env o text h⟩
  · exact ⟨UnixMicro, From_micro env o text h⟩
  · exact ⟨fun v => Unix 0 v, From_nano env o text h⟩

/-- C2. For every input format identifier that matches one of the four input
rules and every token text, `Options.From` succeeds if and only if the text
is a syntactically valid signed base-10 integer (an optional sign followed by
one or more decimal digits, nothing else) whose value fits in 64 bits; in
every other case it returns the `*NumError` of `ParseInt` for that text (a
malformed-integer error), which is not `errUnsupported`.  The function is
total, so it never crashes. -/
theorem From_succeeds_iff_valid (env : Env) (o : Options) (text : Str)
    (hm : matchesInputRule env.lowerTable o.FromFormat = true) :
    ((∃ t, o.From env text = .ok t) ↔
      (isSignedDecimal text = true ∧ minInt64 ≤ decimalValue text
        ∧ decimalValue text ≤ maxInt64)) ∧
    (¬ (isSignedDecimal text = true ∧ minInt64 ≤ decimalValue text
        ∧ decimalValue text ≤ maxInt64) →
      ∃ k, o.From env text = .error (.numError fnParseInt text k) ∧
        o.From env text ≠ .error .errUnsupported) := by
  obtain ⟨mk, hmk⟩ := From_matched env o text hm
  by_cases hv : isSignedDecimal text = true ∧ minInt64 ≤ decimalValue text
      ∧ decimalValue text ≤ maxInt64
  · have hp := ParseInt_valid text hv.1 hv.2.1 hv.2.2
    rw [hp] at hmk
    refine ⟨⟨fun _ => hv, fun _ => ⟨_, hmk⟩⟩, fun h => absurd hv h⟩
  · obtain ⟨k, hk⟩ := ParseInt_invalid text hv
    rw [hk] at hmk
    refine ⟨⟨?_, fun h => absurd h hv⟩, fun _ => ⟨k, hmk, ?_⟩⟩
    · rintro ⟨t, ht⟩
      rw [hmk] at ht
      exact absurd ht (by simp)
    · rw [hmk]
      simp

theorem From_succeeds_iff_valid_witness :
    (∃ k, (optionsFrom "millis".toList).From utcEnv "12.5".toList
        = .error (.numError fnParseInt "12.5".toList k) ∧
      (optionsFrom "millis".toList).From utcEnv "12.5".toList ≠ .error .errUnsupported) :=
  (From_succeeds_iff_valid utcEnv (optionsFrom "millis".toList) "12.5".toList (by decide)).2
    (by decide)

/-- C3. Unsupported-format failure is symmetric for input and output:
`Options.From` returns `errUnsupported` if and only if the input format
identifier matches none of the four input alias sets, and then for every
token text, valid integer or not; `Options.To` returns `errUnsupported` if
and only if the output format identifier does not match the rfc3339 alias
set, for every instant. -/
theorem unsupported_iff_unmatched (env : Env) (o : Options) :
    (∀ text, o.From env text = .error .errUnsupported ↔
      matchesInputRule env.lowerTable o.FromFormat = false) ∧
    (∀ t, o.To env t = .error .errUnsupported ↔
      formatRFC3339.Matches env.lowerTable o.ToFormat = false) := by
  constructor
  · intro text
    cases hm : matchesInputRule env.lowerTable o.FromFormat
    · unfold matchesInputRule at hm
      simp only [Bool.or_eq_false_iff] at hm
      simp only [iff_true]
      exact From_unmatched env o text hm.1.1.1 hm.1.1.2 hm.1.2 hm.2
    · obtain ⟨mk, hmk⟩ := From_matched env o text hm
      simp only [Bool.true_eq_false, iff_false]
      rw [hmk]
      by_cases hv : isSignedDecimal text = true ∧ minInt64 ≤ decimalValue text
          ∧ decimalValue text ≤ maxInt64
      · rw [ParseInt_valid text hv.1 hv.2.1 hv.2.2]
        simp
      · obtain ⟨k, hk⟩ := ParseInt_invalid text hv
        rw [hk]
        simp
  · intro t
    unfold Options.To
    cases hm : formatRFC3339.Matches env.lowerTable o.ToFormat <;> simp

/-! ## Exact matching -/

/-- C4, as the code has it. For every format `f` and every string `v`,
`f.Matches(v)` is true if and only if `v`, trimmed of surrounding white space
and lower-cased, is exactly equal to one of the aliases of `f`; a string whose
trimmed, lower-cased form is a proper prefix, a proper suffix or a proper
superstring of an alias matches only if that form is itself an alias of `f`,
so being part of an alias, or containing one, never makes a match. -/
theorem Matches_exact (table : Char → Char) (f : format) (v : Str) :
    (f.Matches table v = true ↔ normalize table v ∈ f) ∧
    (∀ a ∈ f, (properPrefixOf (normalize table v) a ∨ properSuffixOf (normalize table v) a
        ∨ properSuperstringOf (normalize table v) a) →
      normalize table v ∉ f → f.Matches table v = false) := by
  refine ⟨Matches_iff table f v, ?_⟩
  intro a _ _ hnot
  cases h : f.Matches table v
  · rfl
  · exact absurd ((Matches_iff table f v).mp h) hnot

theorem Matches_exact_witness :
    formatUnix.Matches id "uni".toList = false :=
  (Matches_exact id formatUnix "uni".toList).2 "unix".toList (by decide)
    (Or.inl ⟨by decide, by decide⟩) (by decide)

/-- C4 as stated fails: `nano` is a proper prefix of the alias `nanos` of
`formatNano`, and it matches `formatNano` (it is an alias too). -/
theorem Matches_proper_part_counterexample :
    ¬ (∀ (table : Char → Char) (f : format) (v : Str),
        (f.Matches table v = true ↔ normalize table v ∈ f) ∧
        (∀ a ∈ f, (properPrefixOf v a ∨ properSuffixOf v a ∨ properSuperstringOf v a) →
          f.Matches table v = false)) := by
  intro h
  have := (h id formatNano "nano".toList).2 "nanos".toList (by decide)
    (Or.inl ⟨by decide, by decide⟩)
  exact absurd this (by decide)

/-! ## Case and white space in format identifiers -/

theorem From_congr (env : Env) (o1 o2 : Options)
    (h : normalize env.lowerTable o1.FromFormat = normalize env.lowerTable o2.FromFormat)
    (text : Str) : o1.From env text = o2.From env text := by
  unfold Options.From
  simp only [Matches_eq_decide, h]

theorem To_congr (env : Env) (o1 o2 : Options)
    (h : normalize env.lowerTable o1.ToFormat = normalize env.lowerTable o2.ToFormat)
    (t : Time) : o1.To env t = o2.To env t := by
  unfold Options.To
  simp only [Matches_eq_decide, h]

/-- C5. Format resolution is case-insensitive and whitespace-insensitive: for
every token text `Options.From` gives the same result when the input format
identifier is `UNIX`, ` unix ` or `unix`; for any two identifiers that are
equal after trimming surrounding white space and lower-casing, `Options.From`
(and `Options.To`) return identical results on every input; and with the
unknown identifier `parsec` resolution fails for every token. -/
theorem resolution_case_space_insensitive (env : Env) :
    (∀ text, (optionsFrom "UNIX".toList).From env text = (optionsFrom "unix".toList).From env text
      ∧ (optionsFrom " unix ".toList).From env text
          = (optionsFrom "unix".toList).From env text) ∧
    (∀ o1 o2 : Options,
      normalize env.lowerTable o1.FromFormat = normalize env.lowerTable o2.FromFormat →
      ∀ text, o1.From env text = o2.From env text) ∧
    (∀ o1 o2 : Options,
      normalize env.lowerTable o1.ToFormat = normalize env.lowerTable o2.ToFormat →
      ∀ t, o1.To env t = o2.To env t) ∧
    (∀ text, (optionsFrom "parsec".toList).From env text = .error .errUnsupported) := by
  refine ⟨fun text => ⟨?_, ?_⟩, From_congr env, To_congr env, fun text => ?_⟩
  · exact From_congr env _ _ (by rfl) text
  · exact From_congr env _ _ (by rfl) text
  · apply From_unmatched <;> rfl

theorem resolution_case_space_insensitive_witness :
    (optionsFrom "Millis\t".toList).From utcEnv "1500".toList
      = (optionsFrom " MILLIS".toList).From utcEnv "1500".toList :=
  (resolution_case_space_insensitive utcEnv).2.1 (optionsFrom "Millis\t".toList)
    (optionsFrom " MILLIS".toList) (by decide) "1500".toList

/-! ## The line driver -/

theorem execLoop_cons (env : Env) (opts : Options) (e : Str) (rest : List Str) :
    execLoop env opts (e :: rest) =
      if converts env opts e = true then
        ((match convert env opts e with | .ok s => s | .error _ => []) ::
          (execLoop env opts rest).1, (execLoop env opts rest).2)
      else ([], (execLoop env opts [e]).2) := by
  unfold converts convert
  simp only [execLoop]
  cases h1 : opts.From env e with
  | error err => simp
  | ok t =>
    cases h2 : opts.To env t with
    | error err => simp [h2]
    | ok s => simp [h2]

theorem execLoop_fail (env : Env) (opts : Options) (e : Str)
    (h : converts env opts e = false) : (execLoop env opts [e]).2.isSome = true := by
  unfold converts convert at h
  simp only [execLoop]
  cases h1 : opts.From env e with
  | error err => simp
  | ok t =>
    rw [h1] at h
    cases h2 : opts.To env t with
    | error err => simp [h2]
    | ok s => simp [h2] at h

theorem execLoop_lines (env : Env) (opts : Options) (units : List Str) :
    (execLoop env opts units).1.map Result.ok
        = (units.takeWhile (converts env opts)).map (convert env opts) := by
  induction units with
  | nil => simp [execLoop]
  | cons e rest ih =>
    rw [execLoop_cons]
    cases h : converts env opts e
    · simp [List.takeWhile, h]
    · simp only [if_true, List.map_cons, List.takeWhile, h, ih]
      unfold converts at h
      cases hc : convert env opts e with
      | ok s => rfl
      | error err => rw [hc] at h; simp at h

theorem execLoop_length (env : Env) (opts : Options) (units : List Str) :
    (execLoop env opts units).1.length = (units.takeWhile (converts env opts)).length := by
  induction units with
  | nil => simp [execLoop]
  | cons e rest ih =>
    rw [execLoop_cons]
    cases h : converts env opts e
    · simp [List.takeWhile, h]
    · simp [List.takeWhile, h, ih]

theorem execLoop_isSome_iff (env : Env) (opts : Options) (units : List Str) :
    (execLoop env opts units).2.isSome = true ↔ ∃ e ∈ units, converts env opts e = false := by
  induction units with
  | nil => simp [execLoop]
  | cons e rest ih =>
    rw [execLoop_cons]
    cases h : converts env opts e
    · simp only [Bool.false_eq_true, if_false, execLoop_fail env opts e h, true_iff]
      exact ⟨e, List.mem_cons_self _ _, h⟩
    · simp only [if_true, ih, List.mem_cons]
      constructor
      · rintro ⟨x, hx, hf⟩; exact ⟨x, Or.inr hx, hf⟩
      · rintro ⟨x, hx | hx, hf⟩
        · subst hx; rw [h] at hf; simp at hf
        · exact ⟨x, hx, hf⟩

/-- A token that `ParseInt` rejects is converted under no configuration. -/
theorem converts_of_ParseInt_error (env : Env) (opts : Options) (e : Str)
    (h : ∃ err, ParseInt e = .error err) : converts env opts e = false := by
  obtain ⟨err, herr⟩ := h
  unfold converts convert
  by_cases hm : matchesInputRule env.lowerTable opts.FromFormat = true
  · obtain ⟨mk, hmk⟩ := From_matched env opts e hm
    rw [hmk, herr]
  · unfold matchesInputRule at hm
    simp only [Bool.or_eq_true, not_or, Bool.not_eq_true] at hm
    rw [From_unmatched env opts _ hm.1.1.1 hm.1.1.2 hm.1.2 hm.2]

/-- What `exec` does once the flag parser has returned. -/
theorem exec_parsed (env : Env) (osArgs : List Str) (stdin : Result Str) (opts : Options)
    (args : List Str) (h : env.parseArgs defaultOptions osArgs = .ok (opts, args)) :
    exec env osArgs stdin =
      match inputUnits args stdin with
      | .error err => ([], some err)
      | .ok units => execLoop env opts units := by
  unfold exec
  rw [h]

theorem main_exit (env : Env) (osArgs : List Str) (stdin : Result Str)
    (h : (exec env osArgs stdin).2.isSome = true) : (main env osArgs stdin).2 = 1 := by
  unfold main
  cases hx : (exec env osArgs stdin).2 with
  | none => rw [hx] at h; simp at h
  | some err => simp only [hx]

/-- C8. The line driver is sequential and fail-fast: for every list of input
units and every configuration, the lines printed by the loop of `exec` are
exactly the conversions of the units that precede the first unit on which
decoding or encoding fails, in input order, one line per unit; an error is
returned if and only if some unit fails, so nothing is printed for the
failing unit or any unit after it.  In particular, for the single positional
argument `notanumber` the run prints no converted line and ends in an error,
with exit status 1, whatever the configuration. -/
theorem execLoop_fail_fast (env : Env) (opts : Options) (units : List Str) :
    (execLoop env opts units).1.map Result.ok
        = (units.takeWhile (converts env opts)).map (convert env opts) ∧
    (execLoop env opts units).1.length = (units.takeWhile (converts env opts)).length ∧
    ((execLoop env opts units).2.isSome = true ↔ ∃ e ∈ units, converts env opts e = false) ∧
    (∀ osArgs stdin,
      env.parseArgs defaultOptions osArgs = .ok (opts, ["notanumber".toList]) →
      (exec env osArgs stdin).1 = [] ∧ (exec env osArgs stdin).2.isSome = true
        ∧ (main env osArgs stdin).2 = 1) := by
  refine ⟨execLoop_lines env opts units, execLoop_length env opts units,
    execLoop_isSome_iff env opts units, ?_⟩
  intro osArgs stdin hp
  have hc : converts env opts "notanumber".toList = false :=
    converts_of_ParseInt_error env opts _ ⟨_, rfl⟩
  have hx : exec env osArgs stdin = execLoop env opts ["notanumber".toList] := by
    rw [exec_parsed env osArgs stdin opts _ hp]
    rfl
  have h1 : (exec env osArgs stdin).1 = [] := by
    rw [hx, execLoop_cons, hc]
    rfl
  have h2 : (exec env osArgs stdin).2.isSome = true := by
    rw [hx]
    exact execLoop_fail env opts _ hc
  exact ⟨h1, h2, main_exit env osArgs stdin h2⟩

theorem execLoop_fail_fast_witness :
    (exec utcEnv ["notanumber".toList] (.ok [])).1 = []
      ∧ (exec utcEnv ["notanumber".toList] (.ok [])).2.isSome = true
      ∧ (main utcEnv ["notanumber".toList] (.ok [])).2 = 1 :=
  (execLoop_fail_fast utcEnv defaultOptions []).2.2.2 ["notanumber".toList] (.ok []) rfl

/-! ## Input units -/

theorem splitLoop_length (s cur : Str) : (splitLoop s cur).length = s.count '\n' + 1 := by
  induction s generalizing cur with
  | nil => simp [splitLoop]
  | cons c rest ih =>
    unfold splitLoop
    by_cases h : c = '\n'
    · subst h
      simp [ih]
    · rw [if_neg h, ih, List.count_cons_of_ne (Ne.symm h)]

theorem splitLoop_join (s cur : Str) :
    List.intercalate ['\n'] (splitLoop s cur) = cur.reverse ++ s := by
  induction s generalizing cur with
  | nil => simp [splitLoop, List.intercalate]
  | cons c rest ih =>
    unfold splitLoop
    by_cases h : c = '\n'
    · subst h
      rw [if_pos rfl]
      have hne : splitLoop rest [] ≠ [] := by
        intro h0
        have := splitLoop_length rest []
        rw [h0] at this
        simp at this
      cases hsp : splitLoop rest [] with
      | nil => exact absurd hsp hne
      | cons u us =>
        have := ih []
        rw [hsp] at this
        simp only [List.intercalate, List.intersperse, List.reverse_nil,
          List.nil_append] at this ⊢
        cases us with
        | nil =>
          simp only [List.intersperse] at this ⊢
          rw [← this]
          simp
        | cons v vs =>
          simp only [List.intersperse] at this ⊢
          rw [← this]
          simp
    · rw [if_neg h, ih]
      simp

theorem splitLoop_no_newline (s cur : Str) (hcur : '\n' ∉ cur) :
    ∀ u ∈ splitLoop s cur, '\n' ∉ u := by
  induction s generalizing cur with
  | nil =>
    intro u hu
    simp only [splitLoop, List.mem_singleton] at hu
    subst hu
    simpa using hcur
  | cons c rest ih =>
    unfold splitLoop
    by_cases h : c = '\n'
    · rw [if_pos h]
      intro u hu
      rcases List.mem_cons.mp hu with rfl | hu
      · simpa using hcur
      · exact ih [] (by simp) u hu
    · rw [if_neg h]
      apply ih
      simp only [List.mem_cons, not_or]
      exact ⟨Ne.symm h, hcur⟩

theorem splitLoop_trailing (s cur : Str) :
    splitLoop (s ++ ['\n']) cur = splitLoop s cur ++ [[]] := by
  induction s generalizing cur with
  | nil => simp [splitLoop]
  | cons c rest ih =>
    simp only [List.cons_append, splitLoop]
    by_cases h : c = '\n'
    · simp [h, ih]
    · simp [h, ih]

/-- The errors of the loop of `exec`: a failure of `Options.From` or of
`Options.To`, wrapped once. -/
theorem execLoop_error (env : Env) (opts : Options) (units : List Str) (err : GoError)
    (h : (execLoop env opts units).2 = some err) :
    (∃ e ∈ units, ∃ msg ferr, opts.From env e = .error ferr ∧ err = .wrapError msg ferr) ∨
    (∃ e ∈ units, ∃ t msg terr, opts.From env e = .ok t ∧ opts.To env t = .error terr
      ∧ err = .wrapError msg terr) := by
  induction units with
  | nil => simp [execLoop] at h
  | cons e rest ih =>
    simp only [execLoop] at h
    cases h1 : opts.From env e with
    | error ferr =>
      simp only [h1, Option.some.injEq] at h
      exact Or.inl ⟨e, List.mem_cons_self _ _, _, ferr, h1, h.symm⟩
    | ok t =>
      simp only [h1] at h
      cases h2 : opts.To env t with
      | error terr =>
        simp only [h2, Option.some.injEq] at h
        exact Or.inr ⟨e, List.mem_cons_self _ _, t, _, terr, h1, h2, h.symm⟩
      | ok s =>
        simp only [h2] at h
        rcases ih h with ⟨x, hx, r⟩ | ⟨x, hx, r⟩
        · exact Or.inl ⟨x, List.mem_cons_of_mem _ hx, r⟩
        · exact Or.inr ⟨x, List.mem_cons_of_mem _ hx, r⟩

/-- With both format identifiers recognised, every error of the loop is a
malformed-input error. -/
theorem execLoop_error_malformed (env : Env) (opts : Options) (units : List Str)
    (err : GoError) (hin : matchesInputRule env.lowerTable opts.FromFormat = true)
    (hout : formatRFC3339.Matches env.lowerTable opts.ToFormat = true)
    (h : (execLoop env opts units).2 = some err) : err.isMalformedInput = true := by
  rcases execLoop_error env opts units err h with ⟨e, _, msg, ferr, hf, rfl⟩ |
    ⟨e, _, t, msg, terr, _, ht, rfl⟩
  · obtain ⟨mk, hmk⟩ := From_matched env opts e hin
    rw [hmk] at hf
    by_cases hv : isSignedDecimal e = true ∧ minInt64 ≤ decimalValue e
        ∧ decimalValue e ≤ maxInt64
    · rw [ParseInt_valid e hv.1 hv.2.1 hv.2.2] at hf
      simp at hf
    · obtain ⟨k, hk⟩ := ParseInt_invalid e hv
      rw [hk] at hf
      simp only [Result.error.injEq] at hf
      subst hf
      rfl
  · unfold Options.To at ht
    rw [if_pos hout] at ht
    simp at ht

/-- C9, as the code has it. When no positional argument is given, the input
units are exactly the segments obtained by splitting the whole standard-input
content on the newline character, so content with k newline characters
yields k+1 units; for every content that ends with a newline the last unit is
the empty string, which fails to parse as an integer, so with a recognised
input format and a recognised output format such a run always ends in a
malformed-input error, after the lines of the units that precede the first
failing unit have been printed.  When at least one positional argument is
given, the units are the arguments and standard input is not used. -/
theorem input_units (env : Env) (osArgs : List Str) (opts : Options) (args : List Str)
    (hp : env.parseArgs defaultOptions osArgs = .ok (opts, args)) :
    (args = [] → ∀ d : Str,
      exec env osArgs (.ok d) = execLoop env opts (Split d) ∧
      List.intercalate ['\n'] (Split d) = d ∧ (∀ u ∈ Split d, '\n' ∉ u) ∧
      (Split d).length = d.count '\n' + 1) ∧
    (args = [] → ∀ d : Str, Split (d ++ ['\n']) = Split d ++ [[]] ∧
      (∃ err, ParseInt [] = .error err) ∧
      (matchesInputRule env.lowerTable opts.FromFormat = true →
        formatRFC3339.Matches env.lowerTable opts.ToFormat = true →
        ∃ err, (exec env osArgs (.ok (d ++ ['\n']))).2 = some err ∧ err.isMalformedInput = true ∧
          (exec env osArgs (.ok (d ++ ['\n']))).1.map Result.ok =
            ((Split (d ++ ['\n'])).takeWhile (converts env opts)).map (convert env opts))) ∧
    (args ≠ [] → ∀ stdin, exec env osArgs stdin = execLoop env opts args) := by
  refine ⟨?_, ?_, ?_⟩
  · intro ha d
    subst ha
    refine ⟨?_, ?_, splitLoop_no_newline d [] (by simp), splitLoop_length d []⟩
    · rw [exec_parsed env osArgs _ opts [] hp]
      rfl
    · simpa using splitLoop_join d []
  · intro ha d
    subst ha
    refine ⟨splitLoop_trailing d [], ⟨_, rfl⟩, ?_⟩
    intro hin hout
    have hx : exec env osArgs (.ok (d ++ ['\n'])) = execLoop env opts (Split (d ++ ['\n'])) := by
      rw [exec_parsed env osArgs _ opts [] hp]
      rfl
    have hfail : (execLoop env opts (Split (d ++ ['\n']))).2.isSome = true := by
      rw [execLoop_isSome_iff]
      refine ⟨[], ?_, converts_of_ParseInt_error env opts [] ⟨_, rfl⟩⟩
      unfold Split
      rw [splitLoop_trailing]
      simp
    rw [hx]
    cases he : (execLoop env opts (Split (d ++ ['\n']))).2 with
    | none => rw [he] at hfail; simp at hfail
    | some err =>
      exact ⟨err, rfl, execLoop_error_malformed env opts _ err hin hout he,
        execLoop_lines env opts _⟩
  · intro ha stdin
    rw [exec_parsed env osArgs _ opts args hp]
    unfold inputUnits
    have : ¬ (args.length = 0) := by
      intro h0
      exact ha (List.length_eq_zero.mp h0)
    rw [if_neg this]

theorem input_units_witness :
    exec utcEnv [] (.ok "0\n1000\n".toList)
      = execLoop utcEnv defaultOptions (Split "0\n1000\n".toList) ∧
    List.intercalate ['\n'] (Split "0\n1000\n".toList) = "0\n1000\n".toList ∧
    (∀ u ∈ Split "0\n1000\n".toList, '\n' ∉ u) ∧
    (Split "0\n1000\n".toList).length = "0\n1000\n".toList.count '\n' + 1 :=
  (input_units utcEnv [] defaultOptions [] rfl).1 rfl "0\n1000\n".toList

/-- C9 as stated fails: with the recognised input format `unix`, the
unrecognised output format `iso` and the standard input `0`, newline, the run
ends in an unsupported-format error, not in a malformed-input error. -/
theorem input_units_counterexample :
    matchesInputRule id "unix".toList = true ∧
    ∃ msg, (exec (flagsEnv 0 (optionsOf "unix".toList "iso".toList)) [] (.ok "0\n".toList)).2
        = some (.wrapError msg .errUnsupported) ∧
      (GoError.wrapError msg .errUnsupported).isMalformedInput = false :=
  ⟨by decide, _, rfl, rfl⟩

/-! ## The example of the specification: `0`, newline, `1000`, newline -/

/-- C10, as the code has it. Given no positional arguments and the standard
input `0`, newline, `1000`, newline, with the default formats and a process whose
local time zone is UTC, `exec` prints exactly two converted lines,
`1970-01-01T00:00:00Z` and `1970-01-01T00:16:40Z`, and then fails on the
empty unit after the last newline with a malformed-input error; `main`
writes that error to standard output as a third line, which begins with
`* * * Input:`, and exits with status 1. -/
theorem example_two_lines (env : Env) (osArgs : List Str)
    (hp : env.parseArgs defaultOptions osArgs = .ok (defaultOptions, []))
    (hz : ∀ s, env.localOffset s = 0) :
    exec env osArgs (.ok "0\n1000\n".toList) =
      (["1970-01-01T00:00:00Z".toList, "1970-01-01T00:16:40Z".toList],
        some (.wrapError ("Input:  as unix: strconv.ParseInt: parsing ".toList ++ env.Quote []
          ++ ": invalid syntax".toList) (.numError fnParseInt [] .ErrSyntax))) ∧
    main env osArgs (.ok "0\n1000\n".toList) =
      (["1970-01-01T00:00:00Z".toList, "1970-01-01T00:16:40Z".toList,
        "* * * Input:  as unix: strconv.ParseInt: parsing ".toList ++ env.Quote []
          ++ ": invalid syntax".toList], 1) := by
  have hzf : env.localOffset = fun _ => 0 := funext hz
  have hx : exec env osArgs (.ok "0\n1000\n".toList) =
      (["1970-01-01T00:00:00Z".toList, "1970-01-01T00:16:40Z".toList],
        some (.wrapError ("Input:  as unix: strconv.ParseInt: parsing ".toList ++ env.Quote []
          ++ ": invalid syntax".toList) (.numError fnParseInt [] .ErrSyntax))) := by
    rw [exec_parsed env osArgs _ defaultOptions [] hp]
    show execLoop env defaultOptions ["0".toList, "1000".toList, []] = _
    simp only [execLoop, Options.To, Time.FormatRFC3339, hzf]
    rfl
  refine ⟨hx, ?_⟩
  unfold main
  rw [hx]
  rfl

theorem example_two_lines_witness :
    exec utcEnv [] (.ok "0\n1000\n".toList) =
      (["1970-01-01T00:00:00Z".toList, "1970-01-01T00:16:40Z".toList],
        some (.wrapError ("Input:  as unix: strconv.ParseInt: parsing ".toList ++ utcEnv.Quote []
          ++ ": invalid syntax".toList) (.numError fnParseInt [] .ErrSyntax))) ∧
    main utcEnv [] (.ok "0\n1000\n".toList) =
      (["1970-01-01T00:00:00Z".toList, "1970-01-01T00:16:40Z".toList,
        "* * * Input:  as unix: strconv.ParseInt: parsing ".toList ++ utcEnv.Quote []
          ++ ": invalid syntax".toList], 1) :=
  example_two_lines utcEnv [] rfl (fun _ => rfl)

/-- C10 as stated fails twice over.  In a process whose local time zone is
UTC the program writes three lines, not two: the third reports the empty unit
after the last newline.  In a process five hours west of UTC the two
converted lines are different altogether. -/
theorem example_two_lines_counterexample :
    (main utcEnv [] (.ok "0\n1000\n".toList)).1
        ≠ ["1970-01-01T00:00:00Z".toList, "1970-01-01T00:16:40Z".toList] ∧
    (main utcEnv [] (.ok "0\n1000\n".toList)).1.length = 3 ∧
    (exec (fixedZoneEnv (-18000)) [] (.ok "0\n1000\n".toList)).1
        = ["1969-12-31T19:00:00-05:00".toList, "1969-12-31T19:16:40-05:00".toList] := by
  refine ⟨by decide, by decide, by decide⟩

/-! ## The calendar computation of package `time` -/

theorem isLeap_eq_leapYear (y : Int) : isLeap y = leapYear y := by
  unfold isLeap leapYear
  have e4 : Int.tmod y 4 = 0 ↔ y % 4 = 0 := by
    rw [Int.tmod_def]
    rcases tdiv_cases y 4 (by norm_num) with ⟨_, hq⟩ | ⟨_, hq⟩ <;> rw [hq] <;> omega
  have e100 : Int.tmod y 100 = 0 ↔ y % 100 = 0 := by
    rw [Int.tmod_def]
    rcases tdiv_cases y 100 (by norm_num) with ⟨_, hq⟩ | ⟨_, hq⟩ <;> rw [hq] <;> omega
  have e400 : Int.tmod y 400 = 0 ↔ y % 400 = 0 := by
    rw [Int.tmod_def]
    rcases tdiv_cases y 400 (by norm_num) with ⟨_, hq⟩ | ⟨_, hq⟩ <;> rw [hq] <;> omega
  simp only [ne_eq, e4, e100, e400]

theorem absClock_spec (abs : Nat) :
    (absClock abs).1 < 24 ∧ (absClock abs).2.1 < 60 ∧ (absClock abs).2.2 < 60 ∧
    (absClock abs).1 * 3600 + (absClock abs).2.1 * 60 + (absClock abs).2.2 = abs % 86400 := by
  unfold absClock secondsPerDay secondsPerHour secondsPerMinute
  simp only []
  omega

set_option maxRecDepth 1000000 in
theorem monthDay_table : ∀ l : Bool, ∀ y : Nat, y < 366 → y < (if l then 366 else 365) →
    1 ≤ (monthDay l y).1 ∧ (monthDay l y).1 ≤ 12 ∧ 1 ≤ (monthDay l y).2 ∧
    (monthDay l y).2 ≤ monthLength l (monthDay l y).1 ∧
    daysBeforeMonth l (monthDay l y).1 + ((monthDay l y).2 - 1) = y := by
  decide

theorem monthDay_spec (leap : Bool) (yday : Nat) (h : yday < (if leap then 366 else 365)) :
    1 ≤ (monthDay leap yday).1 ∧ (monthDay leap yday).1 ≤ 12 ∧ 1 ≤ (monthDay leap yday).2 ∧
    (monthDay leap yday).2 ≤ monthLength leap (monthDay leap yday).1 ∧
    daysBeforeMonth leap (monthDay leap yday).1 + ((monthDay leap yday).2 - 1) = yday :=
  monthDay_table leap yday (by split at h <;> omega) h


theorem cycle100 (d1 : Nat) (h : d1 < 146097) :
    d1 / 36524 - d1 / 36524 / 4 ≤ 3 ∧ 36524 * (d1 / 36524 - d1 / 36524 / 4) ≤ d1 ∧
    d1 - 36524 * (d1 / 36524 - d1 / 36524 / 4) ≤ 36524 ∧
    (d1 - 36524 * (d1 / 36524 - d1 / 36524 / 4) = 36524 → d1 / 36524 - d1 / 36524 / 4 = 3) := by
  omega

theorem cycle4 (d2 : Nat) (h : d2 ≤ 36524) :
    d2 / 1461 ≤ 24 ∧ 1461 * (d2 / 1461) ≤ d2 ∧ d2 - 1461 * (d2 / 1461) ≤ 1460 ∧
    (d2 / 1461 = 24 → d2 - 1461 * (d2 / 1461) = 1460 → d2 = 36524) := by
  omega

theorem cycle1 (d3 : Nat) (h : d3 ≤ 1460) :
    d3 / 365 - d3 / 365 / 4 ≤ 3 ∧ 365 * (d3 / 365 - d3 / 365 / 4) ≤ d3 ∧
    d3 - 365 * (d3 / 365 - d3 / 365 / 4) ≤ 365 ∧
    (d3 - 365 * (d3 / 365 - d3 / 365 / 4) = 365 →
      d3 / 365 - d3 / 365 / 4 = 3 ∧ d3 = 1460) := by
  omega

theorem cycles_year (a ip b fp d4 : Nat) (h1 : ip ≤ 3) (h2 : b ≤ 24) (h3 : fp ≤ 3)
    (h4 : d4 ≤ 365) (h5 : d4 = 365 → fp = 3 ∧ (b = 24 → ip = 3)) :
    daysBeforeYear (((400 * a + 100 * ip + 4 * b + fp : Nat) : Int) + absoluteZeroYear) + d4
      = ((146097 * a + 36524 * ip + 1461 * b + 365 * fp + d4 : Nat) : Int) - 106751990353932 ∧
    d4 < (if leapYear (((400 * a + 100 * ip + 4 * b + fp : Nat) : Int) + absoluteZeroYear)
      then 366 else 365) := by
  unfold daysBeforeYear leapYear absoluteZeroYear
  constructor
  · omega
  · by_cases h : d4 = 365
    · obtain ⟨hf, hb⟩ := h5 h
      subst hf
      have : (((400 * a + 100 * ip + 4 * b + 3 : Nat) : Int) + -292277022399) % 4 = 0 ∧
          ((((400 * a + 100 * ip + 4 * b + 3 : Nat) : Int) + -292277022399) % 100 ≠ 0 ∨
           (((400 * a + 100 * ip + 4 * b + 3 : Nat) : Int) + -292277022399) % 400 = 0) := by
        by_cases hb24 : b = 24
        · have := hb hb24
          subst this hb24
          omega
        · omega
      rw [decide_eq_true this]
      simp only [if_true]
      omega
    · split <;> omega

/-- The cycles `absDate` cuts off the day count: `a` of 400 years, `ip` of 100
years, `b` of 4 years and `fp` single years, with `d4` days left over. -/
theorem absYearDay_cycles (abs : Nat) :
    ∃ a ip b fp d4 : Nat, ip ≤ 3 ∧ b ≤ 24 ∧ fp ≤ 3 ∧ d4 ≤ 365 ∧
      (d4 = 365 → fp = 3 ∧ (b = 24 → ip = 3)) ∧
      abs / 86400 = 146097 * a + 36524 * ip + 1461 * b + 365 * fp + d4 ∧
      absYearDay abs
        = (wrap64 (((400 * a + 100 * ip + 4 * b + fp : Nat) : Int) + absoluteZeroYear), d4) := by
  unfold absYearDay secondsPerDay secondsPerHour secondsPerMinute
    daysPer400Years daysPer100Years daysPer4Years
  simp only [Nat.reduceMul, Nat.reduceAdd]
  generalize abs / 86400 = D
  have ha0 : 146097 * (D / 146097) ≤ D := Nat.mul_div_le D 146097
  have hd1 : D - 146097 * (D / 146097) < 146097 := by omega
  generalize D / 146097 = a at ha0 hd1 ⊢
  generalize hdd1 : D - 146097 * a = d1 at hd1 ⊢
  obtain ⟨A1, A2, A3, A4⟩ := cycle100 d1 hd1
  generalize d1 / 36524 - d1 / 36524 / 4 = ip at A1 A2 A3 A4 ⊢
  generalize hdd2 : d1 - 36524 * ip = d2 at A3 A4 ⊢
  obtain ⟨B1, B2, B3, B4⟩ := cycle4 d2 A3
  generalize d2 / 1461 = b at B1 B2 B3 B4 ⊢
  generalize hdd3 : d2 - 1461 * b = d3 at B3 B4 ⊢
  obtain ⟨C1, C2, C3, C4⟩ := cycle1 d3 B3
  generalize d3 / 365 - d3 / 365 / 4 = fp at C1 C2 C3 C4 ⊢
  generalize hdd4 : d3 - 365 * fp = d4 at C3 C4 ⊢
  refine ⟨a, ip, b, fp, d4, A1, B1, C1, C3, ?_, ?_, rfl⟩
  · intro h
    exact ⟨(C4 h).1, fun hb => A4 (B4 hb (by have := (C4 h).2; omega))⟩
  · omega

theorem absYearDay_spec (abs : Nat) (h : abs < 2 ^ 64) :
    daysBeforeYear (absYearDay abs).1 + (absYearDay abs).2
      = ((abs / 86400 : Nat) : Int) - 106751990353932 ∧
    (absYearDay abs).2 < (if leapYear (absYearDay abs).1 then 366 else 365) := by
  obtain ⟨a, ip, b, fp, d4, h1, h2, h3, h4, h5, hsum, heq⟩ := absYearDay_cycles abs
  have hw : wrap64 (((400 * a + 100 * ip + 4 * b + fp : Nat) : Int) + absoluteZeroYear)
      = ((400 * a + 100 * ip + 4 * b + fp : Nat) : Int) + absoluteZeroYear := by
    apply wrap64_of_range <;> unfold absoluteZeroYear <;> omega
  rw [heq, hw, hsum]
  exact cycles_year a ip b fp d4 h1 h2 h3 h4 h5

/-- The calendar fields that `absDate` and `absClock` compute are a date of
the Gregorian calendar and a time of day, and they denote the absolute second
count they were computed from. -/
theorem civilOfAbs_spec (abs : Nat) (h : abs < 2 ^ 64) :
    (civilOfAbs abs).valid ∧
    (civilOfAbs abs).toUnix = (abs : Int) - (unixToInternal + internalToAbsolute) := by
  obtain ⟨hy1, hy2⟩ := absYearDay_spec abs h
  obtain ⟨hc1, hc2, hc3, hc4⟩ := absClock_spec abs
  have hl : isLeap (absYearDay abs).1 = leapYear (absYearDay abs).1 := isLeap_eq_leapYear _
  obtain ⟨m1, m2, m3, m4, m5⟩ := monthDay_spec (leapYear (absYearDay abs).1) (absYearDay abs).2 hy2
  unfold Civil.valid Civil.toUnix civilOfAbs absDate
  simp only [hl]
  refine ⟨⟨m1, m2, m3, m4, hc1, hc2, hc3⟩, ?_⟩
  have e1970 : daysBeforeYear 1970 = 719162 := by decide
  rw [e1970]
  unfold unixToInternal internalToAbsolute secondsPerDay secondsPerHour secondsPerMinute
  have hdiv := Nat.div_add_mod abs 86400
  omega

/-! ## `Options.To` -/

theorem appendRFC3339_eq (offset : Int) (abs : Nat) :
    appendRFC3339 offset abs = (civilOfAbs abs).text ++ appendZone offset := rfl

theorem To_Local (env : Env) (o : Options) (t : Time)
    (hto : formatRFC3339.Matches env.lowerTable o.ToFormat = true) (hloc : t.loc = .Local) :
    o.To env t = .ok ((civilOfAbs (absOfUnix (t.unixSec + env.localOffset t.unixSec))).text
      ++ appendZone (env.localOffset t.unixSec)) := by
  unfold Options.To Time.FormatRFC3339 Time.locabs
  rw [if_pos hto, hloc]
  rfl

theorem absOfUnix_eq (s : Int) (h1 : -(unixToInternal + internalToAbsolute) ≤ s)
    (h2 : s < 2 ^ 63) :
    ((absOfUnix s : Nat) : Int) = s + (unixToInternal + internalToAbsolute)
      ∧ absOfUnix s < 2 ^ 64 := by
  unfold absOfUnix toUint64 wrap64
  unfold unixToInternal internalToAbsolute secondsPerDay secondsPerHour secondsPerMinute at *
  omega

theorem Unix_loc (sec nsec : Int) : (Unix sec nsec).loc = .Local := by
  unfold Unix
  split
  · dsimp only
    split <;> rfl
  · rfl

/-- Every instant `Options.From` returns is a `Local` time. -/
theorem From_loc (env : Env) (o : Options) (text : Str) (t : Time)
    (h : o.From env text = .ok t) : t.loc = .Local := by
  unfold Options.From at h
  split at h
  · split at h
    · simp at h
    · simp only [Result.ok.injEq] at h; rw [← h]; exact Unix_loc _ _
  · split at h
    · split at h
      · simp at h
      · simp only [Result.ok.injEq] at h; rw [← h]; exact Unix_loc _ _
    · split at h
      · split at h
        · simp at h
        · simp only [Result.ok.injEq] at h; rw [← h]; exact Unix_loc _ _
      · split at h
        · split at h
          · simp at h
          · simp only [Result.ok.injEq] at h; rw [← h]; exact Unix_loc _ _
        · simp at h

/-- The rendering of `Options.To` in terms of the calendar: for a `Local`
time whose wall clock stays in the range of `absDate`, the text is a valid
calendar time that denotes the wall-clock second count, followed by the
zone. -/
theorem To_civil (env : Env) (o : Options) (t : Time)
    (hto : formatRFC3339.Matches env.lowerTable o.ToFormat = true) (hloc : t.loc = .Local)
    (h1 : -(unixToInternal + internalToAbsolute) ≤ t.unixSec + env.localOffset t.unixSec)
    (h2 : t.unixSec + env.localOffset t.unixSec < 2 ^ 63) :
    ∃ c : Civil, c.valid ∧ c.toUnix = t.unixSec + env.localOffset t.unixSec ∧
      o.To env t = .ok (c.text ++ appendZone (env.localOffset t.unixSec)) := by
  obtain ⟨ha, hb⟩ := absOfUnix_eq _ h1 h2
  obtain ⟨hv, hu⟩ := civilOfAbs_spec _ hb
  refine ⟨_, hv, ?_, To_Local env o t hto hloc⟩
  rw [hu, ha]
  omega

set_option maxRecDepth 100000 in
/-- C6, as the code has it. For every instant `t` produced by `Options.From`,
`Options.To` with the rfc3339 rule renders the calendar date and time of `t`
in the local time zone of the process (`time.Unix` returns a `Local` time):
the text is a date of the Gregorian calendar and a time of day that denote
the seconds of `t` since the epoch plus the offset of the local zone at `t`,
followed by `Z` when that offset is zero and by a sign, hours and minutes
otherwise; this holds as long as the wall clock stays in the range of the
calendar computation of package `time` (from year -292277022399 on).  When
the local time zone is UTC the date and time are those of UTC and the offset
part is `Z`; in such a process token `0` decoded with `--from millis`, and
token `0` decoded with the default seconds rule, is rendered as exactly
`1970-01-01T00:00:00Z`. -/
theorem To_renders_local_time (env : Env) (o : Options) (text : Str) (t : Time)
    (hto : formatRFC3339.Matches env.lowerTable o.ToFormat = true)
    (hfrom : o.From env text = .ok t)
    (h1 : -(unixToInternal + internalToAbsolute) ≤ t.unixSec + env.localOffset t.unixSec)
    (h2 : t.unixSec + env.localOffset t.unixSec < 2 ^ 63) :
    (∃ c : Civil, c.valid ∧ c.toUnix = t.unixSec + env.localOffset t.unixSec ∧
      o.To env t = .ok (c.text ++ appendZone (env.localOffset t.unixSec))) ∧
    (env.localOffset t.unixSec = 0 →
      ∃ c : Civil, c.valid ∧ c.toUnix = t.unixSec ∧ o.To env t = .ok (c.text ++ ['Z'])) ∧
    (env.localOffset t.unixSec ≠ 0 →
      appendZone (env.localOffset t.unixSec) =
        [if Int.tdiv (env.localOffset t.unixSec) 60 < 0 then '-' else '+']
          ++ appendInt (Int.tdiv (Int.natAbs (Int.tdiv (env.localOffset t.unixSec) 60)) 60) 2
          ++ [':']
          ++ appendInt (Int.tmod (Int.natAbs (Int.tdiv (env.localOffset t.unixSec) 60)) 60) 2) ∧
    ((∀ s, env.localOffset s = 0) →
      convert env (optionsOf "millis".toList "rfc3339".toList) "0".toList
        = .ok "1970-01-01T00:00:00Z".toList ∧
      convert env defaultOptions "0".toList = .ok "1970-01-01T00:00:00Z".toList) := by
  have hloc := From_loc env o text t hfrom
  obtain ⟨c, hv, hu, hc⟩ := To_civil env o t hto hloc h1 h2
  refine ⟨⟨c, hv, hu, hc⟩, ?_, ?_, ?_⟩
  · intro h0
    rw [h0] at hu hc
    refine ⟨c, hv, by omega, ?_⟩
    rw [hc]
    rfl
  · intro hne
    unfold appendZone
    rw [if_neg hne]
    dsimp only
    split
    · rename_i hneg
      have : ((Int.natAbs (Int.tdiv (env.localOffset t.unixSec) 60) : Nat) : Int)
          = -(Int.tdiv (env.localOffset t.unixSec) 60) := by omega
      rw [this]
    · rename_i hneg
      have : ((Int.natAbs (Int.tdiv (env.localOffset t.unixSec) 60) : Nat) : Int)
          = (Int.tdiv (env.localOffset t.unixSec) 60) := by omega
      rw [this]
  · intro hz
    have hzf : env.localOffset = fun _ => 0 := funext hz
    constructor
    · simp only [convert, Options.To, Time.FormatRFC3339, hzf]
      rfl
    · simp only [convert, Options.To, Time.FormatRFC3339, hzf]
      rfl

theorem To_renders_local_time_witness :
    ∃ c : Civil, c.valid ∧ c.toUnix = (UnixMilli 1700000000123).unixSec + 3600 ∧
      (optionsOf "millis".toList "rfc3339".toList).To (fixedZoneEnv 3600) (UnixMilli 1700000000123)
        = .ok (c.text ++ appendZone 3600) :=
  (To_renders_local_time (fixedZoneEnv 3600) (optionsOf "millis".toList "rfc3339".toList)
    "1700000000123".toList (UnixMilli 1700000000123) (by decide) (by decide) (by decide)
    (by decide)).1

set_option maxRecDepth 100000 in
/-- C6 as stated fails.  In a process five hours west of UTC, token `0`
decoded with `--from millis` is rendered as `1969-12-31T19:00:00-05:00`: the
date and time are local and the offset part is not `Z`.  And even in a
process on UTC the text is not always the calendar time of the instant: the
smallest 64-bit second count is rendered as a date in the year 292277026596,
which lies `2^63` seconds after the epoch, not before it. -/
theorem To_utc_counterexample :
    convert (fixedZoneEnv (-18000)) (optionsOf "millis".toList "rfc3339".toList) "0".toList
      = .ok "1969-12-31T19:00:00-05:00".toList ∧
    defaultOptions.From utcEnv "-9223372036854775808".toList = .ok (Unix (-9223372036854775808) 0) ∧
    (Unix (-9223372036854775808) 0).unixSec = -9223372036854775808 ∧
    defaultOptions.To utcEnv (Unix (-9223372036854775808) 0)
      = .ok ((⟨292277026596, 12, 4, 15, 30, 8⟩ : Civil).text ++ ['Z']) ∧
    (⟨292277026596, 12, 4, 15, 30, 8⟩ : Civil).toUnix = 9223372036854775808 := by
  refine ⟨by decide, by decide, by decide, by decide, by decide⟩

/-! ## Reading back the RFC 3339 text -/

theorem appendInt_two (x : Nat) (h : x < 100) :
    appendInt (x : Int) 2 = [Char.ofNat ('0'.toNat + x / 10), Char.ofNat ('0'.toNat + x % 10)] := by
  have hx : ¬ ((x : Int) < 0) := by omega
  have hu : toUint64 (x : Int) = x := by unfold toUint64; omega
  unfold appendInt
  simp only [hx, if_false, hu, List.nil_append]
  by_cases h10 : x ≥ 10
  · have h2 : ¬ (x / 10 ≥ 10) := by omega
    have e : x - x / 10 * 10 = x % 10 := by omega
    simp [appendIntLoop, h10, h2, e]
  · have e0 : x / 10 = 0 := by omega
    have e1 : x % 10 = x := by omega
    simp [appendIntLoop, h10, e0, e1]

theorem appendIntLoop_step (room u : Nat) (acc : Str) (h : u ≥ 10) :
    appendIntLoop (room + 1) u acc
      = appendIntLoop room (u / 10) (Char.ofNat ('0'.toNat + (u - u / 10 * 10)) :: acc) := by
  rw [appendIntLoop, if_pos h]

theorem appendIntLoop_last (room u : Nat) (acc : Str) (h : ¬ u ≥ 10) :
    appendIntLoop (room + 1) u acc = Char.ofNat ('0'.toNat + u) :: acc := by
  rw [appendIntLoop, if_neg h]

theorem appendInt_four (x : Nat) (h1 : 1000 ≤ x) (h2 : x < 10000) :
    appendInt (x : Int) 4 = [Char.ofNat ('0'.toNat + x / 1000), Char.ofNat ('0'.toNat + x / 100 % 10),
      Char.ofNat ('0'.toNat + x / 10 % 10), Char.ofNat ('0'.toNat + x % 10)] := by
  have hx : ¬ ((x : Int) < 0) := by omega
  have hu : toUint64 (x : Int) = x := by unfold toUint64; omega
  unfold appendInt
  simp only [hx, if_false, hu, List.nil_append]
  have a1 : x ≥ 10 := by omega
  have a2 : x / 10 ≥ 10 := by omega
  have a3 : x / 10 / 10 ≥ 10 := by omega
  have a4 : ¬ (x / 10 / 10 / 10 ≥ 10) := by omega
  have e1 : x - x / 10 * 10 = x % 10 := by omega
  have e2 : x / 10 - x / 10 / 10 * 10 = x / 10 % 10 := by omega
  have e3 : x / 10 / 10 - x / 10 / 10 / 10 * 10 = x / 100 % 10 := by omega
  have e4 : x / 10 / 10 / 10 = x / 1000 := by omega
  rw [show (20 : Nat) = 19 + 1 from rfl, appendIntLoop_step _ _ _ a1,
    show (19 : Nat) = 18 + 1 from rfl, appendIntLoop_step _ _ _ a2,
    show (18 : Nat) = 17 + 1 from rfl, appendIntLoop_step _ _ _ a3,
    show (17 : Nat) = 16 + 1 from rfl, appendIntLoop_last _ _ _ a4, e1, e2, e3, e4]
  rfl

theorem digitsValue_two (a b : Nat) (ha : a < 10) (hb : b < 10) :
    digitsValue [Char.ofNat ('0'.toNat + a), Char.ofNat ('0'.toNat + b)] = a * 10 + b := by
  unfold digitsValue
  simp only [List.foldl_cons, List.foldl_nil, digitChar_toNat a ha, digitChar_toNat b hb]
  have : '0'.toNat = 48 := rfl
  omega

theorem digitsValue_four (a b c d : Nat) (ha : a < 10) (hb : b < 10) (hc : c < 10) (hd : d < 10) :
    digitsValue [Char.ofNat ('0'.toNat + a), Char.ofNat ('0'.toNat + b),
      Char.ofNat ('0'.toNat + c), Char.ofNat ('0'.toNat + d)]
      = a * 1000 + b * 100 + c * 10 + d := by
  unfold digitsValue
  simp only [List.foldl_cons, List.foldl_nil, digitChar_toNat a ha, digitChar_toNat b hb,
    digitChar_toNat c hc, digitChar_toNat d hd]
  have : '0'.toNat = 48 := rfl
  omega

theorem zoneSeconds_appendZone (off : Int) (hm : off % 60 = 0) (h1 : -86400 < off)
    (h2 : off < 86400) : zoneSeconds (appendZone off) = some off := by
  unfold appendZone
  by_cases h0 : off = 0
  · rw [if_pos h0, h0]
    rfl
  · rw [if_neg h0]
    dsimp only
    rcases tdiv_cases off 60 (by norm_num) with ⟨hs, hq⟩ | ⟨hs, hq⟩
    · rw [hq, if_neg (by omega)]
      obtain ⟨k, hk⟩ : ∃ k : Nat, (k : Int) = off / 60 := ⟨(off / 60).toNat, by omega⟩
      rw [← hk, Int.tdiv_eq_ediv (by omega) (by norm_num),
        Int.tmod_eq_emod (by omega) (by norm_num)]
      have e1 : (k : Int) / 60 = ((k / 60 : Nat) : Int) := by omega
      have e2 : (k : Int) % 60 = ((k % 60 : Nat) : Int) := by omega
      rw [e1, e2, appendInt_two _ (by omega), appendInt_two _ (by omega)]
      simp only [List.cons_append, List.nil_append, zoneSeconds]
      have d1 := isDigit_digitChar (k / 60 / 10) (by omega)
      have d2 := isDigit_digitChar (k / 60 % 10) (by omega)
      have d3 := isDigit_digitChar (k % 60 / 10) (by omega)
      have d4 := isDigit_digitChar (k % 60 % 10) (by omega)
      have v1 := digitsValue_two (k / 60 / 10) (k / 60 % 10) (by omega) (by omega)
      have v2 := digitsValue_two (k % 60 / 10) (k % 60 % 10) (by omega) (by omega)
      simp only [List.all_cons, List.all_nil, d1, d2, d3, d4, Bool.and_self, v1, v2]
      rw [if_pos ⟨Or.inl trivial, trivial, trivial, by omega, by omega⟩,
        if_neg (by decide)]
      congr 1
      push_cast
      omega
    · rw [hq, if_pos (by omega)]
      obtain ⟨k, hk⟩ : ∃ k : Nat, (k : Int) = -off / 60 := ⟨(-off / 60).toNat, by omega⟩
      have hneg : - -(-off / 60) = (k : Int) := by omega
      rw [hneg, Int.tdiv_eq_ediv (by omega) (by norm_num),
        Int.tmod_eq_emod (by omega) (by norm_num)]
      have e1 : (k : Int) / 60 = ((k / 60 : Nat) : Int) := by omega
      have e2 : (k : Int) % 60 = ((k % 60 : Nat) : Int) := by omega
      rw [e1, e2, appendInt_two _ (by omega), appendInt_two _ (by omega)]
      simp only [List.cons_append, List.nil_append, zoneSeconds]
      have d1 := isDigit_digitChar (k / 60 / 10) (by omega)
      have d2 := isDigit_digitChar (k / 60 % 10) (by omega)
      have d3 := isDigit_digitChar (k % 60 / 10) (by omega)
      have d4 := isDigit_digitChar (k % 60 % 10) (by omega)
      have v1 := digitsValue_two (k / 60 / 10) (k / 60 % 10) (by omega) (by omega)
      have v2 := digitsValue_two (k % 60 / 10) (k % 60 % 10) (by omega) (by omega)
      simp only [List.all_cons, List.all_nil, d1, d2, d3, d4, Bool.and_self, v1, v2]
      rw [if_pos ⟨Or.inr trivial, trivial, trivial, by omega, by omega⟩]
      simp only [if_true]
      congr 1
      push_cast
      omega

/-- Reading back the text of a valid calendar time with a four-digit year
gives the instant it denotes. -/
theorem rfc3339Instant_text (c : Civil) (hv : c.valid) (hy1 : 1000 ≤ c.year)
    (hy2 : c.year ≤ 9999) (zone : Str) (z : Int) (hz : zoneSeconds zone = some z) :
    rfc3339Instant (c.text ++ zone) = some (c.toUnix - z) := by
  obtain ⟨y, mo, d, h, mi, s⟩ := c
  obtain ⟨v1, v2, v3, v4, v5, v6, v7⟩ := hv
  simp only at hy1 hy2 v1 v2 v3 v4 v5 v6 v7
  have hd31 : d ≤ 31 := by
    have : monthLength (leapYear y) mo ≤ 31 := by
      unfold monthLength
      split <;> try omega
      split <;> omega
    omega
  obtain ⟨k, hk⟩ : ∃ k : Nat, (k : Int) = y := ⟨y.toNat, by omega⟩
  subst hk
  have hvalid : (⟨(k : Int), mo, d, h, mi, s⟩ : Civil).valid := ⟨v1, v2, v3, v4, v5, v6, v7⟩
  unfold Civil.text
  simp only
  rw [appendInt_four k (by omega) (by omega), appendInt_two mo (by omega),
    appendInt_two d (by omega), appendInt_two h (by omega), appendInt_two mi (by omega),
    appendInt_two s (by omega)]
  simp only [List.cons_append, List.nil_append, rfc3339Instant]
  have dy1 := isDigit_digitChar (k / 1000) (by omega)
  have dy2 := isDigit_digitChar (k / 100 % 10) (by omega)
  have dy3 := isDigit_digitChar (k / 10 % 10) (by omega)
  have dy4 := isDigit_digitChar (k % 10) (by omega)
  have dm1 := isDigit_digitChar (mo / 10) (by omega)
  have dm2 := isDigit_digitChar (mo % 10) (by omega)
  have dd1 := isDigit_digitChar (d / 10) (by omega)
  have dd2 := isDigit_digitChar (d % 10) (by omega)
  have dh1 := isDigit_digitChar (h / 10) (by omega)
  have dh2 := isDigit_digitChar (h % 10) (by omega)
  have dn1 := isDigit_digitChar (mi / 10) (by omega)
  have dn2 := isDigit_digitChar (mi % 10) (by omega)
  have ds1 := isDigit_digitChar (s / 10) (by omega)
  have ds2 := isDigit_digitChar (s % 10) (by omega)
  have ey := digitsValue_four (k / 1000) (k / 100 % 10) (k / 10 % 10) (k % 10)
    (by omega) (by omega) (by omega) (by omega)
  have em := digitsValue_two (mo / 10) (mo % 10) (by omega) (by omega)
  have ed := digitsValue_two (d / 10) (d % 10) (by omega) (by omega)
  have eh := digitsValue_two (h / 10) (h % 10) (by omega) (by omega)
  have en := digitsValue_two (mi / 10) (mi % 10) (by omega) (by omega)
  have es := digitsValue_two (s / 10) (s % 10) (by omega) (by omega)
  have f1 : k / 1000 * 1000 + k / 100 % 10 * 100 + k / 10 % 10 * 10 + k % 10 = k := by omega
  have f2 : mo / 10 * 10 + mo % 10 = mo := by omega
  have f3 : d / 10 * 10 + d % 10 = d := by omega
  have f4 : h / 10 * 10 + h % 10 = h := by omega
  have f5 : mi / 10 * 10 + mi % 10 = mi := by omega
  have f6 : s / 10 * 10 + s % 10 = s := by omega
  simp only [List.all_cons, List.all_nil, dy1, dy2, dy3, dy4, dm1, dm2, dd1, dd2, dh1, dh2,
    dn1, dn2, ds1, ds2, Bool.and_self, ey, em, ed, eh, en, es, f1, f2, f3, f4, f5, f6,
    and_self, if_true, hvalid, hz]

theorem month_days_bound : ∀ l : Bool, ∀ m : Nat, m < 13 → 1 ≤ m →
    daysBeforeMonth l m + monthLength l m ≤ 366 := by
  decide

/-- A valid calendar time within about three centuries of the epoch has a
four-digit year. -/
theorem year_four_digits (c : Civil) (hv : c.valid) (h1 : -9300000000 ≤ c.toUnix)
    (h2 : c.toUnix ≤ 9300000000) : 1000 ≤ c.year ∧ c.year ≤ 9999 := by
  obtain ⟨v1, v2, v3, v4, v5, v6, v7⟩ := hv
  have hb := month_days_bound (leapYear c.year) c.month (by omega) v1
  unfold Civil.toUnix at h1 h2
  have e1970 : daysBeforeYear 1970 = 719162 := by decide
  rw [e1970] at h1 h2
  unfold daysBeforeYear at h1 h2
  generalize daysBeforeMonth (leapYear c.year) c.month = dm at *
  generalize monthLength (leapYear c.year) c.month = ml at *
  constructor <;> omega

theorem UnixMilli_scaled (n : Int) : UnixMilli (n * 1000) = Unix n 0 := by
  unfold UnixMilli
  rw [Int.mul_tdiv_cancel _ (by norm_num), Int.mul_tmod_left]
  rfl

theorem UnixMicro_scaled (n : Int) : UnixMicro (n * 1000000) = Unix n 0 := by
  unfold UnixMicro
  rw [Int.mul_tdiv_cancel _ (by norm_num), Int.mul_tmod_left]
  rfl

theorem UnixNano_scaled (n : Int) (h1 : -(2 ^ 63) ≤ n * 1000000000)
    (h2 : n * 1000000000 < 2 ^ 63) : Unix 0 (n * 1000000000) = Unix n 0 := by
  have r : Unix n 0 = unixTime n (wrap32 0) := by
    unfold Unix
    rw [if_neg (by omega)]
  rw [r]
  unfold Unix
  split
  · dsimp only
    rw [Int.mul_tdiv_cancel _ (by norm_num)]
    have e1 : wrap64 (0 + n) = n := by rw [Int.zero_add]; exact wrap64_of_range _ (by omega) (by omega)
    have e2 : wrap64 (n * 1000000000) = n * 1000000000 := wrap64_of_range _ h1 h2
    have e3 : wrap64 (n * 1000000000 - n * 1000000000) = 0 := by
      rw [sub_self]; rfl
    rw [e1, e2, e3, if_neg (by omega)]
  · have : n = 0 := by omega
    subst this
    rfl

theorem Unix_unixSec (n : Int) (h1 : -(2 ^ 63) ≤ n) (h2 : n < 2 ^ 63) :
    (Unix n 0).unixSec = n := by
  unfold Unix
  rw [if_neg (by omega)]
  exact (unixTime_unixSec n 0 h1 h2 (by omega) (by omega)).1

/-- C7, as the code has it. Round-trip consistency across unit scaling: for
every signed 64-bit integer `n` for which `n*1000`, `n*1_000_000` and
`n*1_000_000_000` do not overflow 64 bits, decoding the text of `n` with the
seconds rule, of `n*1000` with the milliseconds rule, of `n*1_000_000` with
the microseconds rule and of `n*1_000_000_000` with the nanoseconds rule all
yield the same instant, `n` seconds after the epoch, and encoding each with
the calendar-string rule yields the same string; when the offset of the local
time zone at that instant is a whole number of minutes and less than 24 hours
in size, as it is for UTC, that string represents the instant `n` seconds
after the epoch. -/
theorem scaling_round_trip (env : Env) (ou om oc og : Options) (n : Int)
    (hu : formatUnix.Matches env.lowerTable ou.FromFormat = true)
    (hm : formatMilli.Matches env.lowerTable om.FromFormat = true)
    (hc : formatMicro.Matches env.lowerTable oc.FromFormat = true)
    (hn : formatNano.Matches env.lowerTable og.FromFormat = true)
    (tu : formatRFC3339.Matches env.lowerTable ou.ToFormat = true)
    (tm : formatRFC3339.Matches env.lowerTable om.ToFormat = true)
    (tc : formatRFC3339.Matches env.lowerTable oc.ToFormat = true)
    (tn : formatRFC3339.Matches env.lowerTable og.ToFormat = true)
    (h1 : minInt64 ≤ n * 1000000000) (h2 : n * 1000000000 ≤ maxInt64) :
    ∃ t out,
      ou.From env (decimalText n) = .ok t ∧ om.From env (decimalText (n * 1000)) = .ok t ∧
      oc.From env (decimalText (n * 1000000)) = .ok t ∧
      og.From env (decimalText (n * 1000000000)) = .ok t ∧
      t.epochNanos = n * 10 ^ 9 ∧
      ou.To env t = .ok out ∧ om.To env t = .ok out ∧ oc.To env t = .ok out ∧
      og.To env t = .ok out ∧
      (env.localOffset n % 60 = 0 → -86400 < env.localOffset n → env.localOffset n < 86400 →
        rfc3339Instant out = some n) := by
  simp only [minInt64, maxInt64] at h1 h2
  have hsec : (Unix n 0).unixSec = n := Unix_unixSec n (by omega) (by omega)
  refine ⟨Unix n 0, (Unix n 0).FormatRFC3339 env.localOffset, ?_, ?_, ?_, ?_, ?_, ?_, ?_, ?_, ?_, ?_⟩
  · rw [From_unix env ou _ hu,
      ParseInt_decimalText n (by simp only [minInt64]; omega) (by simp only [maxInt64]; omega)]
  · rw [From_milli env om _ hm,
      ParseInt_decimalText _ (by simp only [minInt64]; omega) (by simp only [maxInt64]; omega)]
    simp only [UnixMilli_scaled]
  · rw [From_micro env oc _ hc,
      ParseInt_decimalText _ (by simp only [minInt64]; omega) (by simp only [maxInt64]; omega)]
    simp only [UnixMicro_scaled]
  · rw [From_nano env og _ hn,
      ParseInt_decimalText _ (by simp only [minInt64]; omega) (by simp only [maxInt64]; omega)]
    simp only [UnixNano_scaled n (by omega) (by omega)]
  · rw [Unix_epochNanos_small n 0 (by omega) (by omega) (by omega) (by omega)]
    omega
  · unfold Options.To; rw [if_pos tu]
  · unfold Options.To; rw [if_pos tm]
  · unfold Options.To; rw [if_pos tc]
  · unfold Options.To; rw [if_pos tn]
  · intro z1 z2 z3
    have hloc : (Unix n 0).loc = .Local := Unix_loc n 0
    obtain ⟨c, hv, hcu, hto⟩ := To_civil env ou (Unix n 0) tu hloc
      (by rw [hsec]; unfold unixToInternal internalToAbsolute secondsPerDay secondsPerHour
            secondsPerMinute; omega)
      (by rw [hsec]; omega)
    rw [hsec] at hcu hto
    have hout : (Unix n 0).FormatRFC3339 env.localOffset = c.text ++ appendZone (env.localOffset n) := by
      have h := hto
      unfold Options.To at h
      rw [if_pos tu] at h
      exact Result.ok.inj h
    obtain ⟨y1, y2⟩ := year_four_digits c hv (by omega) (by omega)
    rw [hout, rfc3339Instant_text c hv y1 y2 _ _ (zoneSeconds_appendZone _ z1 z2 z3), hcu,
      Int.add_sub_cancel]

theorem scaling_round_trip_witness :
    ∃ t out,
      (optionsFrom "unix".toList).From utcEnv (decimalText 1000) = .ok t ∧
      (optionsFrom "millis".toList).From utcEnv (decimalText (1000 * 1000)) = .ok t ∧
      (optionsFrom "micros".toList).From utcEnv (decimalText (1000 * 1000000)) = .ok t ∧
      (optionsFrom "nanos".toList).From utcEnv (decimalText (1000 * 1000000000)) = .ok t ∧
      t.epochNanos = 1000 * 10 ^ 9 ∧
      (optionsFrom "unix".toList).To utcEnv t = .ok out ∧
      (optionsFrom "millis".toList).To utcEnv t = .ok out ∧
      (optionsFrom "micros".toList).To utcEnv t = .ok out ∧
      (optionsFrom "nanos".toList).To utcEnv t = .ok out ∧
      (utcEnv.localOffset 1000 % 60 = 0 → -86400 < utcEnv.localOffset 1000 →
        utcEnv.localOffset 1000 < 86400 → rfc3339Instant out = some 1000) :=
  scaling_round_trip utcEnv (optionsFrom "unix".toList) (optionsFrom "millis".toList)
    (optionsFrom "micros".toList) (optionsFrom "nanos".toList) 1000
    (by decide) (by decide) (by decide) (by decide) (by decide) (by decide) (by decide)
    (by decide) (by decide) (by decide)

set_option maxRecDepth 100000 in
/-- C7 as stated fails in a process whose local time zone is off UTC by a
number of seconds that is not a whole number of minutes, such as the local
mean time of Amsterdam, 19 minutes and 32 seconds east: the second count
`-2000000000` is rendered as `1906-08-16T20:46:12+00:19`, and that string
represents the instant `-1999999968`, 32 seconds later. -/
theorem scaling_round_trip_counterexample :
    convert (fixedZoneEnv 1172) (optionsFrom "unix".toList) (decimalText (-2000000000))
      = .ok "1906-08-16T20:46:12+00:19".toList ∧
    convert (fixedZoneEnv 1172) (optionsFrom "nanos".toList)
        (decimalText (-2000000000 * 1000000000))
      = .ok "1906-08-16T20:46:12+00:19".toList ∧
    rfc3339Instant "1906-08-16T20:46:12+00:19".toList = some (-1999999968) ∧
    rfc3339Instant "1906-08-16T20:46:12+00:19".toList ≠ some (-2000000000) := by
  have e1 : decimalText (-2000000000) = "-2000000000".toList := by
    simp [decimalText, natText]
  have e2 : decimalText (-2000000000 * 1000000000) = "-2000000000000000000".toList := by
    simp [decimalText, natText]
  rw [e1, e2]
  refine ⟨by decide, by decide, by decide, by decide⟩

/-! ## Defaults -/

/-- C11. `format.Default` returns the first alias of a non-empty format and
the empty string for an empty format; the default input format identifier is
the first alias of the seconds rule, `unix`, and the default output format
identifier is the sole alias of the calendar-string rule, `rfc3339`; each
default resolves to its own rule, so with an untouched configuration
`Options.From` applies the seconds rule and `Options.To` the calendar-string
rule, and `exec` runs its loop with these options when the flag parser leaves
them as they are. -/
theorem defaults_resolve (env : Env) :
    (∀ (e : Str) (f : format), format.Default (e :: f) = e) ∧
    format.Default [] = [] ∧
    formatUnix.Default = "unix".toList ∧ formatRFC3339.Default = "rfc3339".toList ∧
    defaultOptions.FromFormat = "unix".toList ∧ defaultOptions.ToFormat = "rfc3339".toList ∧
    formatUnix.Matches env.lowerTable defaultOptions.FromFormat = true ∧
    formatRFC3339.Matches env.lowerTable defaultOptions.ToFormat = true ∧
    (∀ text, defaultOptions.From env text =
      match ParseInt text with
      | .error err => .error err
      | .ok v => .ok (Unix v 0)) ∧
    (∀ t, defaultOptions.To env t = .ok (t.FormatRFC3339 env.localOffset)) ∧
    (∀ osArgs args stdin, env.parseArgs defaultOptions osArgs = .ok (defaultOptions, args) →
      args ≠ [] → exec env osArgs stdin = execLoop env defaultOptions args) := by
  refine ⟨fun _ _ => rfl, rfl, rfl, rfl, rfl, rfl, rfl, rfl, ?_, ?_, ?_⟩
  · intro text
    exact From_unix env defaultOptions text rfl
  · intro t
    unfold Options.To
    rw [if_pos (show formatRFC3339.Matches env.lowerTable defaultOptions.ToFormat = true from rfl)]
  · intro osArgs args stdin hp hne
    rw [exec_parsed env osArgs stdin defaultOptions args hp]
    unfold inputUnits
    rw [if_neg (by intro h0; exact hne (List.length_eq_zero.mp h0))]

theorem defaults_resolve_witness :
    exec utcEnv ["86400".toList] (.ok []) = execLoop utcEnv defaultOptions ["86400".toList] :=
  (defaults_resolve utcEnv).2.2.2.2.2.2.2.2.2.2 ["86400".toList] ["86400".toList] (.ok []) rfl
    (by decide)

/-! ## Error reports -/

theorem execLoop_append (env : Env) (opts : Options) (pre rest : List Str)
    (hpre : ∀ u ∈ pre, converts env opts u = true) :
    (execLoop env opts (pre ++ rest)).2 = (execLoop env opts rest).2 := by
  induction pre with
  | nil => rfl
  | cons u us ih =>
    rw [List.cons_append, execLoop_cons, if_pos (hpre u (List.mem_cons_self _ _))]
    exact ih (fun x hx => hpre x (List.mem_cons_of_mem _ hx))

theorem execLoop_From_error (env : Env) (opts : Options) (e : Str) (rest : List Str)
    (err : GoError) (h : opts.From env e = .error err) :
    execLoop env opts (e :: rest) =
      ([], some (.wrapError ("Input: ".toList ++ e ++ " as ".toList ++ opts.FromFormat
        ++ ": ".toList ++ err.Error env) err)) := by
  simp only [execLoop, h]

theorem execLoop_To_error (env : Env) (opts : Options) (e : Str) (rest : List Str) (t : Time)
    (err : GoError) (h : opts.From env e = .ok t) (h2 : opts.To env t = .error err) :
    execLoop env opts (e :: rest) =
      ([], some (.wrapError ("Output: ".toList ++ env.timeString t ++ " as ".toList
        ++ opts.ToFormat ++ ": ".toList ++ err.Error env) err)) := by
  simp only [execLoop, h, h2]

theorem To_error (env : Env) (opts : Options) (t : Time) (err : GoError)
    (h : opts.To env t = .error err) :
    err = .errUnsupported ∧ formatRFC3339.Matches env.lowerTable opts.ToFormat = false := by
  unfold Options.To at h
  split at h
  · simp at h
  · rename_i hm
    simp only [Result.error.injEq] at h
    exact ⟨h.symm, by simpa using hm⟩

/-- C13, as the code has it. Every decode or encode failure that the run
reaches is reported with the offending value and the format being applied.
For the first unit `e` on which the conversion fails (every unit before it
converts): if `Options.From` fails on `e` with `err`, the error returned by
the loop of `exec` has the message `Input: ` + `e` + ` as ` + `FromFormat` +
`: ` + the message of `err`, and wraps `err`; if it is `Options.To` that
fails on the instant of `e`, the error wraps `errUnsupported` and its message
begins with `Output: ` and contains ` as ` + `ToFormat`.  The token and the
format identifiers appear verbatim, as supplied.  A unit after the first
failing one is never decoded, so a failure on it is not reported. -/
theorem errors_report_value_and_format (env : Env) (opts : Options) (pre rest : List Str)
    (e : Str) (hpre : ∀ u ∈ pre, converts env opts u = true) :
    (∀ err, opts.From env e = .error err →
      ∃ r, (execLoop env opts (pre ++ e :: rest)).2 = some r ∧
        r.Error env = "Input: ".toList ++ e ++ " as ".toList ++ opts.FromFormat
          ++ ": ".toList ++ err.Error env ∧
        r.Unwrap = some err) ∧
    (∀ t err, opts.From env e = .ok t → opts.To env t = .error err →
      ∃ r, (execLoop env opts (pre ++ e :: rest)).2 = some r ∧
        (∃ shown, r.Error env = "Output: ".toList ++ shown ++ " as ".toList ++ opts.ToFormat
          ++ ": ".toList ++ "Unsupported format".toList) ∧
        r.Unwrap = some .errUnsupported) := by
  constructor
  · intro err h
    refine ⟨.wrapError ("Input: ".toList ++ e ++ " as ".toList ++ opts.FromFormat
      ++ ": ".toList ++ err.Error env) err, ?_, rfl, rfl⟩
    rw [execLoop_append env opts pre _ hpre, execLoop_From_error env opts e rest err h]
  · intro t err h h2
    obtain ⟨he, _⟩ := To_error env opts t err h2
    subst he
    refine ⟨.wrapError ("Output: ".toList ++ env.timeString t ++ " as ".toList
      ++ opts.ToFormat ++ ": ".toList ++ GoError.errUnsupported.Error env) .errUnsupported,
      ?_, ⟨env.timeString t, rfl⟩, rfl⟩
    rw [execLoop_append env opts pre _ hpre, execLoop_To_error env opts e rest t _ h h2]

theorem errors_report_value_and_format_witness :
    ∃ r, (execLoop utcEnv (optionsOf " Millis".toList "rfc3339".toList)
          (["1500".toList] ++ "12.5".toList :: ["7".toList])).2 = some r ∧
      r.Error utcEnv = "Input: ".toList ++ "12.5".toList ++ " as ".toList ++ " Millis".toList
        ++ ": ".toList
        ++ (GoError.numError fnParseInt "12.5".toList .ErrSyntax).Error utcEnv ∧
      r.Unwrap = some (.numError fnParseInt "12.5".toList .ErrSyntax) :=
  (errors_report_value_and_format utcEnv (optionsOf " Millis".toList "rfc3339".toList)
    ["1500".toList] ["7".toList] "12.5".toList (by decide)).1 _ (by decide)

/-- C13 as stated fails for a unit that comes after the first failing one.
With the units `x`, `y` and the formats `unix` and `rfc3339`, `Options.From`
fails on `y`, yet the error returned names `x` and wraps the error of `x`.
With the units `0`, `x` and the output format `iso`, `Options.From` fails on
`x`, yet the error returned is the `Output` error of the unit `0`, which
wraps `errUnsupported`. -/
theorem errors_report_counterexample :
    (optionsOf "unix".toList "rfc3339".toList).From utcEnv "y".toList
      = .error (.numError fnParseInt "y".toList .ErrSyntax) ∧
    (∃ r, (execLoop utcEnv (optionsOf "unix".toList "rfc3339".toList)
          ["x".toList, "y".toList]).2 = some r ∧
      r.Error utcEnv = "Input: x as unix: strconv.ParseInt: parsing \"x\": invalid syntax".toList ∧
      r.Error utcEnv ≠ "Input: ".toList ++ "y".toList ++ " as ".toList ++ "unix".toList
        ++ ": ".toList ++ (GoError.numError fnParseInt "y".toList .ErrSyntax).Error utcEnv ∧
      r.Unwrap ≠ some (.numError fnParseInt "y".toList .ErrSyntax)) ∧
    (optionsOf "unix".toList "iso".toList).From utcEnv "x".toList
      = .error (.numError fnParseInt "x".toList .ErrSyntax) ∧
    (∃ r, (execLoop utcEnv (optionsOf "unix".toList "iso".toList)
          ["0".toList, "x".toList]).2 = some r ∧
      r.Unwrap = some .errUnsupported ∧
      r.Unwrap ≠ some (.numError fnParseInt "x".toList .ErrSyntax)) := by
  refine ⟨by decide, ⟨_, rfl, by decide, by decide, by decide⟩, by decide,
    ⟨_, rfl, by decide, by decide⟩⟩

/-! ## When the output format is read -/

/-- C16. The output format identifier is only examined after a unit has been
decoded.  For every configuration and every non-empty list of units: if the
first unit fails to decode, the loop of `exec` returns an `Input` error and
prints nothing, whatever the output format identifier is; if the output
format identifier is unsupported and the first unit decodes, it returns an
`Output` error that wraps `errUnsupported` and prints no converted line at
all, regardless of the remaining units. -/
theorem output_format_read_late (env : Env) (opts : Options) (e : Str) (rest : List Str) :
    (∀ err, opts.From env e = .error err → ∀ toFormat : Str,
      execLoop env ⟨opts.FromFormat, toFormat, opts.Debug, opts.Verbose⟩ (e :: rest) =
        ([], some (.wrapError ("Input: ".toList ++ e ++ " as ".toList ++ opts.FromFormat
          ++ ": ".toList ++ err.Error env) err))) ∧
    (∀ t, opts.From env e = .ok t →
      formatRFC3339.Matches env.lowerTable opts.ToFormat = false →
      execLoop env opts (e :: rest) =
        ([], some (.wrapError ("Output: ".toList ++ env.timeString t ++ " as ".toList
          ++ opts.ToFormat ++ ": ".toList ++ "Unsupported format".toList) .errUnsupported))) := by
  constructor
  · intro err h toFormat
    have h' : Options.From env ⟨opts.FromFormat, toFormat, opts.Debug, opts.Verbose⟩ e
        = .error err := by
      rw [← h]
      exact From_congr env _ _ rfl e
    exact execLoop_From_error env _ e rest err h'
  · intro t h hm
    have h2 : opts.To env t = .error .errUnsupported := by
      unfold Options.To
      rw [if_neg (by simp [hm])]
    exact execLoop_To_error env opts e rest t _ h h2

theorem output_format_read_late_witness :
    execLoop utcEnv (optionsOf "unix".toList "iso8601".toList) ("0".toList :: ["x".toList]) =
      ([], some (.wrapError ("Output: ".toList ++ utcEnv.timeString (Unix 0 0) ++ " as ".toList
        ++ "iso8601".toList ++ ": ".toList ++ "Unsupported format".toList) .errUnsupported)) :=
  (output_format_read_late utcEnv (optionsOf "unix".toList "iso8601".toList) "0".toList
    ["x".toList]).2 (Unix 0 0) (by decide) (by decide)

/-! ## The alias sets -/

theorem formats_disjoint :
    List.Pairwise (fun f g : format => ∀ a ∈ f, a ∉ g) allFormats := by
  decide

theorem aliases_normal (table : Char → Char) :
    ∀ f ∈ allFormats, ∀ a ∈ f, TrimSpace a = a ∧ ToLower table a = a ∧ normalize table a = a := by
  intro f hf a ha
  simp only [allFormats, List.mem_cons, List.mem_singleton, List.not_mem_nil, or_false] at hf
  rcases hf with rfl | rfl | rfl | rfl | rfl <;>
    simp only [formatNano, formatMicro, formatMilli, formatUnix, formatRFC3339, List.mem_cons,
      List.mem_singleton, List.not_mem_nil, or_false] at ha <;>
    rcases ha with rfl | rfl | rfl <;> exact ⟨rfl, rfl, rfl⟩

theorem fromCases_match (env : Env) (cases : List (format × (Int → Time))) (o : Options)
    (text : Str)
    (huniq : ∀ c ∈ cases, ∀ d ∈ cases, c.1.Matches env.lowerTable o.FromFormat = true →
      d.1.Matches env.lowerTable o.FromFormat = true → c.2 = d.2)
    (c : format × (Int → Time)) (hc : c ∈ cases)
    (hm : c.1.Matches env.lowerTable o.FromFormat = true) :
    fromCases env cases o text =
      match ParseInt text with
      | .error err => .error err
      | .ok v => .ok (c.2 v) := by
  induction cases with
  | nil => simp at hc
  | cons d rest ih =>
    unfold fromCases
    by_cases hd : d.1.Matches env.lowerTable o.FromFormat = true
    · rw [if_pos hd, huniq d (List.mem_cons_self _ _) c hc hd hm]
    · rw [if_neg hd]
      rcases List.mem_cons.mp hc with rfl | hc'
      · exact absurd hm hd
      · exact ih (fun x hx y hy => huniq x (List.mem_cons_of_mem _ hx) y
          (List.mem_cons_of_mem _ hy)) hc'

theorem fromCases_none (env : Env) (cases : List (format × (Int → Time))) (o : Options)
    (text : Str) (h : ∀ c ∈ cases, ¬ c.1.Matches env.lowerTable o.FromFormat = true) :
    fromCases env cases o text = .error .errUnsupported := by
  induction cases with
  | nil => rfl
  | cons d rest ih =>
    unfold fromCases
    rw [if_neg (h d (List.mem_cons_self _ _))]
    exact ih (fun x hx => h x (List.mem_cons_of_mem _ hx))

theorem fromCases_inputCases (env : Env) (o : Options) (text : Str) :
    fromCases env inputCases o text = o.From env text := rfl

theorem inputCases_unique (env : Env) (o : Options) :
    ∀ c ∈ inputCases, ∀ d ∈ inputCases, c.1.Matches env.lowerTable o.FromFormat = true →
      d.1.Matches env.lowerTable o.FromFormat = true → c.2 = d.2 := by
  obtain ⟨h1, h2, h3⟩ := input_rules_disjoint env.lowerTable o.FromFormat
  intro c hc d hd mc md
  simp only [inputCases, List.mem_cons, List.mem_singleton, List.not_mem_nil, or_false] at hc hd
  rcases hc with rfl | rfl | rfl | rfl <;> rcases hd with rfl | rfl | rfl | rfl <;>
    first
    | rfl
    | (simp only at mc md
       have a1 := h1
       have a2 := h2
       have a3 := h3
       simp_all)

/-- C14. The five alias sets (nano, micro, milli, unix, rfc3339) are pairwise
disjoint and every alias is already lower-case with no surrounding white
space; hence every identifier matches at most one rule, every alias matches
its own rule, and the result of `Options.From` does not depend on the order
of the cases in its switch: the switch with its four cases in any other order
returns the same result on every input. -/
theorem alias_sets_disjoint (env : Env) :
    List.Pairwise (fun f g : format => ∀ a ∈ f, a ∉ g) allFormats ∧
    (∀ f ∈ allFormats, ∀ a ∈ f,
      TrimSpace a = a ∧ ToLower env.lowerTable a = a ∧ normalize env.lowerTable a = a) ∧
    (∀ v, List.Pairwise (fun f g : format =>
      ¬ (f.Matches env.lowerTable v = true ∧ g.Matches env.lowerTable v = true)) allFormats) ∧
    (∀ f ∈ allFormats, ∀ a ∈ f, f.Matches env.lowerTable a = true) ∧
    (∀ cases : List (format × (Int → Time)), cases.Perm inputCases →
      ∀ o text, fromCases env cases o text = o.From env text) := by
  refine ⟨formats_disjoint, aliases_normal env.lowerTable, ?_, ?_, ?_⟩
  · intro v
    refine List.Pairwise.imp ?_ formats_disjoint
    intro f g hfg hboth
    exact hfg _ ((Matches_iff _ f v).mp hboth.1) ((Matches_iff _ g v).mp hboth.2)
  · intro f hf a ha
    rw [Matches_iff, (aliases_normal env.lowerTable f hf a ha).2.2]
    exact ha
  · intro cases hperm o text
    rw [← fromCases_inputCases]
    have huniq := inputCases_unique env o
    by_cases hex : ∃ c ∈ inputCases, c.1.Matches env.lowerTable o.FromFormat = true
    · obtain ⟨c, hc, hm⟩ := hex
      rw [fromCases_match env inputCases o text huniq c hc hm]
      exact fromCases_match env cases o text
        (fun x hx y hy => huniq x (hperm.mem_iff.mp hx) y (hperm.mem_iff.mp hy))
        c (hperm.mem_iff.mpr hc) hm
    · have hnone : ∀ c ∈ inputCases, ¬ c.1.Matches env.lowerTable o.FromFormat = true :=
        fun c hc hm => hex ⟨c, hc, hm⟩
      rw [fromCases_none env inputCases o text hnone]
      exact fromCases_none env cases o text (fun c hc => hnone c (hperm.mem_iff.mp hc))

theorem alias_sets_disjoint_witness :
    fromCases utcEnv [(formatNano, fun v => Unix 0 v), (formatMicro, UnixMicro),
        (formatMilli, UnixMilli), (formatUnix, fun v => Unix v 0)]
        (optionsFrom "millis".toList) "1500".toList
      = (optionsFrom "millis".toList).From utcEnv "1500".toList :=
  (alias_sets_disjoint utcEnv).2.2.2.2 _ (List.reverse_perm inputCases)
    (optionsFrom "millis".toList) "1500".toList

/-! ## Sub-second input -/

/-- The seconds of `time.Unix(sec, nsec)`, read back through `Time.Unix`: the
nanoseconds are carried into the seconds rounding toward negative infinity. -/
theorem Unix_unixSec_floor (sec nsec : Int) (hs1 : -(2 ^ 63) + 2 ^ 34 ≤ sec)
    (hs2 : sec < 2 ^ 63 - 2 ^ 34) (hn1 : -(2 ^ 63) ≤ nsec) (hn2 : nsec < 2 ^ 63) :
    (Unix sec nsec).unixSec = sec + nsec / 1000000000 := by
  unfold Unix
  split
  · rcases tdiv_cases nsec 1000000000 (by norm_num) with ⟨h0, hq⟩ | ⟨h0, hq⟩
    · rw [hq]
      dsimp only
      have e1 : wrap64 (sec + nsec / 1000000000) = sec + nsec / 1000000000 :=
        wrap64_of_range _ (by omega) (by omega)
      have e2 : wrap64 (nsec / 1000000000 * 1000000000) = nsec / 1000000000 * 1000000000 :=
        wrap64_of_range _ (by omega) (by omega)
      have e3 : wrap64 (nsec - nsec / 1000000000 * 1000000000)
          = nsec - nsec / 1000000000 * 1000000000 := wrap64_of_range _ (by omega) (by omega)
      rw [e1, e2, e3, if_neg (by omega)]
      have e4 : wrap32 (nsec - nsec / 1000000000 * 1000000000)
          = nsec - nsec / 1000000000 * 1000000000 := by unfold wrap32; omega
      rw [e4]
      exact (unixTime_unixSec (sec + nsec / 1000000000)
        (nsec - nsec / 1000000000 * 1000000000) (by omega) (by omega) (by omega) (by omega)).1
    · rw [hq]
      dsimp only
      have e1 : wrap64 (sec + -(-nsec / 1000000000)) = sec + -(-nsec / 1000000000) :=
        wrap64_of_range _ (by omega) (by omega)
      have e2 : wrap64 (-(-nsec / 1000000000) * 1000000000)
          = -(-nsec / 1000000000) * 1000000000 := wrap64_of_range _ (by omega) (by omega)
      have e3 : wrap64 (nsec - -(-nsec / 1000000000) * 1000000000)
          = nsec - -(-nsec / 1000000000) * 1000000000 := wrap64_of_range _ (by omega) (by omega)
      rw [e1, e2, e3]
      split
      · have e5 : wrap64 (sec + -(-nsec / 1000000000) - 1) = sec + -(-nsec / 1000000000) - 1 :=
          wrap64_of_range _ (by omega) (by omega)
        have e6 : wrap64 (nsec - -(-nsec / 1000000000) * 1000000000 + 1000000000)
            = nsec - -(-nsec / 1000000000) * 1000000000 + 1000000000 :=
          wrap64_of_range _ (by omega) (by omega)
        rw [e5, e6]
        have e4 : wrap32 (nsec - -(-nsec / 1000000000) * 1000000000 + 1000000000)
            = nsec - -(-nsec / 1000000000) * 1000000000 + 1000000000 := by unfold wrap32; omega
        rw [e4, (unixTime_unixSec (sec + -(-nsec / 1000000000) - 1)
          (nsec - -(-nsec / 1000000000) * 1000000000 + 1000000000)
          (by omega) (by omega) (by omega) (by omega)).1]
        omega
      · have e4 : wrap32 (nsec - -(-nsec / 1000000000) * 1000000000)
            = nsec - -(-nsec / 1000000000) * 1000000000 := by unfold wrap32; omega
        rw [e4, (unixTime_unixSec (sec + -(-nsec / 1000000000))
          (nsec - -(-nsec / 1000000000) * 1000000000)
          (by omega) (by omega) (by omega) (by omega)).1]
        omega
  · have e4 : wrap32 nsec = nsec := by unfold wrap32; omega
    rw [e4, (unixTime_unixSec sec nsec (by omega) (by omega) (by omega) (by omega)).1]
    omega

theorem UnixMilli_unixSec (msec : Int) (h1 : -(2 ^ 63) ≤ msec) (h2 : msec < 2 ^ 63) :
    (UnixMilli msec).unixSec = msec / 1000 := by
  unfold UnixMilli
  rw [Int.tmod_def]
  rcases tdiv_cases msec 1000 (by norm_num) with ⟨h0, hq⟩ | ⟨h0, hq⟩
  · rw [hq, wrap64_of_range _ (by omega) (by omega),
      Unix_unixSec_floor _ _ (by omega) (by omega) (by omega) (by omega)]
    omega
  · rw [hq, wrap64_of_range _ (by omega) (by omega),
      Unix_unixSec_floor _ _ (by omega) (by omega) (by omega) (by omega)]
    omega

theorem UnixMicro_unixSec (usec : Int) (h1 : -(2 ^ 63) ≤ usec) (h2 : usec < 2 ^ 63) :
    (UnixMicro usec).unixSec = usec / 1000000 := by
  unfold UnixMicro
  rw [Int.tmod_def]
  rcases tdiv_cases usec 1000000 (by norm_num) with ⟨h0, hq⟩ | ⟨h0, hq⟩
  · rw [hq, wrap64_of_range _ (by omega) (by omega),
      Unix_unixSec_floor _ _ (by omega) (by omega) (by omega) (by omega)]
    omega
  · rw [hq, wrap64_of_range _ (by omega) (by omega),
      Unix_unixSec_floor _ _ (by omega) (by omega) (by omega) (by omega)]
    omega

/-- The text of `t.Format(time.RFC3339)` depends on a `Local` time only
through its second count. -/
theorem FormatRFC3339_Local (zone : Int → Int) (t : Time) (hloc : t.loc = .Local) :
    t.FormatRFC3339 zone
      = appendRFC3339 (zone t.unixSec) (absOfUnix (t.unixSec + zone t.unixSec)) := by
  unfold Time.FormatRFC3339 Time.locabs
  rw [hloc]
  rfl

theorem FormatRFC3339_congr (zone : Int → Int) (t u : Time) (ht : t.loc = .Local)
    (hu : u.loc = .Local) (h : t.unixSec = u.unixSec) :
    t.FormatRFC3339 zone = u.FormatRFC3339 zone := by
  rw [FormatRFC3339_Local zone t ht, FormatRFC3339_Local zone u hu, h]

/-- The conversion of a token on a recognised output format, from the
constructor the input rule applies. -/
theorem convert_of_From (env : Env) (o : Options) (text : Str) (mk : Int → Time)
    (hto : formatRFC3339.Matches env.lowerTable o.ToFormat = true)
    (hfrom : o.From env text =
      match ParseInt text with
      | .error err => .error err
      | .ok v => .ok (mk v))
    (v : Int) (hv : ParseInt text = .ok v) :
    convert env o text = .ok ((mk v).FormatRFC3339 env.localOffset) := by
  unfold convert
  rw [hfrom, hv]
  simp only [Options.To, hto, if_true]

theorem UnixMilli_loc (v : Int) : (UnixMilli v).loc = .Local := Unix_loc _ _

theorem UnixMicro_loc (v : Int) : (UnixMicro v).loc = .Local := Unix_loc _ _

/-- Read back as RFC 3339, the text of a second count within three centuries
of the epoch is that second count, when the zone offset is a whole number of
minutes. -/
theorem FormatRFC3339_instant (zone : Int → Int) (n : Int) (h1 : -9223372037 ≤ n)
    (h2 : n ≤ 9223372036) (z1 : zone n % 60 = 0) (z2 : -86400 < zone n) (z3 : zone n < 86400) :
    rfc3339Instant ((Unix n 0).FormatRFC3339 zone) = some n := by
  have hsec : (Unix n 0).unixSec = n := Unix_unixSec n (by omega) (by omega)
  rw [FormatRFC3339_Local zone _ (Unix_loc n 0), hsec, appendRFC3339_eq]
  obtain ⟨ha, hb⟩ := absOfUnix_eq (n + zone n)
    (by unfold unixToInternal internalToAbsolute secondsPerDay secondsPerHour secondsPerMinute
        omega) (by omega)
  obtain ⟨hv, hu⟩ := civilOfAbs_spec _ hb
  have hu' : (civilOfAbs (absOfUnix (n + zone n))).toUnix = n + zone n := by
    rw [hu, ha]
    omega
  obtain ⟨y1, y2⟩ := year_four_digits _ hv (by omega) (by omega)
  rw [rfc3339Instant_text _ hv y1 y2 _ _ (zoneSeconds_appendZone _ z1 z2 z3), hu',
    Int.add_sub_cancel]

/-- C15, as the code has it. The calendar-string output carries no fractional
seconds, so sub-second input is truncated toward negative infinity: for every
signed 64-bit integer `n`, converting `n` with the milliseconds
(microseconds, nanoseconds) rule yields the same output string as converting
`floor(n / 1000)` (`floor(n / 10^6)`, `floor(n / 10^9)`) with the seconds
rule, in every local time zone; for example -1 milliseconds is rendered as
the same string as -1 seconds; that string represents the second -1 when the
offset of the local time zone is a whole number of minutes and less than 24
hours in size, and in a process whose local time zone is UTC it is
`1969-12-31T23:59:59Z`, not `1970-01-01T00:00:00Z`. -/
theorem subsecond_truncated (env : Env) (ou om oc og : Options) (n : Int)
    (hu : formatUnix.Matches env.lowerTable ou.FromFormat = true)
    (hm : formatMilli.Matches env.lowerTable om.FromFormat = true)
    (hc : formatMicro.Matches env.lowerTable oc.FromFormat = true)
    (hn : formatNano.Matches env.lowerTable og.FromFormat = true)
    (tu : formatRFC3339.Matches env.lowerTable ou.ToFormat = true)
    (tm : formatRFC3339.Matches env.lowerTable om.ToFormat = true)
    (tc : formatRFC3339.Matches env.lowerTable oc.ToFormat = true)
    (tn : formatRFC3339.Matches env.lowerTable og.ToFormat = true)
    (h1 : minInt64 ≤ n) (h2 : n ≤ maxInt64) :
    (∃ out, convert env om (decimalText n) = .ok out ∧
      convert env ou (decimalText (n / 1000)) = .ok out) ∧
    (∃ out, convert env oc (decimalText n) = .ok out ∧
      convert env ou (decimalText (n / 1000000)) = .ok out) ∧
    (∃ out, convert env og (decimalText n) = .ok out ∧
      convert env ou (decimalText (n / 1000000000)) = .ok out) ∧
    (convert env om "-1".toList = convert env ou "-1".toList) ∧
    (env.localOffset (-1) % 60 = 0 → -86400 < env.localOffset (-1) →
      env.localOffset (-1) < 86400 →
      ∃ out, convert env om "-1".toList = .ok out ∧ rfc3339Instant out = some (-1)) ∧
    ((∀ s, env.localOffset s = 0) →
      convert env om "-1".toList = .ok "1969-12-31T23:59:59Z".toList ∧
      convert env ou "0".toList = .ok "1970-01-01T00:00:00Z".toList) := by
  have hp := ParseInt_decimalText n h1 h2
  simp only [minInt64, maxInt64] at h1 h2
  have hsec : ∀ k : Int, -(2 ^ 63) ≤ k → k < 2 ^ 63 →
      convert env ou (decimalText k) = .ok ((Unix k 0).FormatRFC3339 env.localOffset) := by
    intro k k1 k2
    exact convert_of_From env ou (decimalText k) (fun v => Unix v 0) tu (From_unix env ou _ hu) k
      (ParseInt_decimalText k (by simp only [minInt64]; omega) (by simp only [maxInt64]; omega))
  have cm : convert env om (decimalText n) = .ok ((UnixMilli n).FormatRFC3339 env.localOffset) :=
    convert_of_From env om (decimalText n) UnixMilli tm (From_milli env om _ hm) n hp
  have cc : convert env oc (decimalText n) = .ok ((UnixMicro n).FormatRFC3339 env.localOffset) :=
    convert_of_From env oc (decimalText n) UnixMicro tc (From_micro env oc _ hc) n hp
  have cn : convert env og (decimalText n) = .ok ((Unix 0 n).FormatRFC3339 env.localOffset) :=
    convert_of_From env og (decimalText n) (fun v => Unix 0 v) tn (From_nano env og _ hn) n hp
  have pm1 : ParseInt "-1".toList = .ok (-1) := by decide
  have p0 : ParseInt "0".toList = .ok 0 := by decide
  have cm1 : convert env om "-1".toList
      = .ok ((UnixMilli (-1)).FormatRFC3339 env.localOffset) :=
    convert_of_From env om _ UnixMilli tm (From_milli env om _ hm) (-1) pm1
  have cu1 : convert env ou "-1".toList
      = .ok ((Unix (-1) 0).FormatRFC3339 env.localOffset) :=
    convert_of_From env ou _ (fun v => Unix v 0) tu (From_unix env ou _ hu) (-1) pm1
  have cu0 : convert env ou "0".toList
      = .ok ((Unix 0 0).FormatRFC3339 env.localOffset) :=
    convert_of_From env ou _ (fun v => Unix v 0) tu (From_unix env ou _ hu) 0 p0
  have em : (UnixMilli n).FormatRFC3339 env.localOffset
      = (Unix (n / 1000) 0).FormatRFC3339 env.localOffset := by
    apply FormatRFC3339_congr _ _ _ (UnixMilli_loc _) (Unix_loc _ _)
    rw [UnixMilli_unixSec n (by omega) (by omega), Unix_unixSec _ (by omega) (by omega)]
  have ec : (UnixMicro n).FormatRFC3339 env.localOffset
      = (Unix (n / 1000000) 0).FormatRFC3339 env.localOffset := by
    apply FormatRFC3339_congr _ _ _ (UnixMicro_loc _) (Unix_loc _ _)
    rw [UnixMicro_unixSec n (by omega) (by omega), Unix_unixSec _ (by omega) (by omega)]
  have en : (Unix 0 n).FormatRFC3339 env.localOffset
      = (Unix (n / 1000000000) 0).FormatRFC3339 env.localOffset := by
    apply FormatRFC3339_congr _ _ _ (Unix_loc _ _) (Unix_loc _ _)
    rw [Unix_unixSec_floor 0 n (by omega) (by omega) (by omega) (by omega),
      Unix_unixSec _ (by omega) (by omega)]
    omega
  have e1 : (UnixMilli (-1)).FormatRFC3339 env.localOffset
      = (Unix (-1) 0).FormatRFC3339 env.localOffset := by
    apply FormatRFC3339_congr _ _ _ (UnixMilli_loc _) (Unix_loc _ _)
    rw [UnixMilli_unixSec (-1) (by omega) (by omega), Unix_unixSec _ (by omega) (by omega)]
    rfl
  refine ⟨⟨_, cm, ?_⟩, ⟨_, cc, ?_⟩, ⟨_, cn, ?_⟩, ?_, ?_, ?_⟩
  · rw [hsec _ (by omega) (by omega), em]
  · rw [hsec _ (by omega) (by omega), ec]
  · rw [hsec _ (by omega) (by omega), en]
  · rw [cm1, cu1, e1]
  · intro z1 z2 z3
    refine ⟨_, cm1, ?_⟩
    rw [e1]
    exact FormatRFC3339_instant env.localOffset (-1) (by omega) (by omega) z1 z2 z3
  · intro hz
    have hzf : env.localOffset = fun _ => 0 := funext hz
    rw [cm1, cu0, e1, hzf]
    exact ⟨rfl, rfl⟩

theorem subsecond_truncated_witness :
    ∃ out, convert utcEnv (optionsFrom "millis".toList) (decimalText (-1500)) = .ok out ∧
      convert utcEnv (optionsFrom "unix".toList) (decimalText (-1500 / 1000)) = .ok out :=
  (subsecond_truncated utcEnv (optionsFrom "unix".toList) (optionsFrom "millis".toList)
    (optionsFrom "micros".toList) (optionsFrom "nanos".toList) (-1500)
    (by decide) (by decide) (by decide) (by decide) (by decide) (by decide) (by decide)
    (by decide) (by decide) (by decide)).1

set_option maxRecDepth 100000 in
/-- C15 as stated fails in its example: in a process five hours west of UTC,
-1 milliseconds is rendered as `1969-12-31T18:59:59-05:00`, a text that does
not begin with `1969-12-31T23:59:59`; and in a process 19 minutes and 32
seconds east of UTC it is rendered as `1970-01-01T00:19:31+00:19`, a text
that represents the second 31 after the epoch, not the second before it. -/
theorem subsecond_truncated_counterexample :
    convert (fixedZoneEnv (-18000)) (optionsFrom "millis".toList) "-1".toList
      = .ok "1969-12-31T18:59:59-05:00".toList ∧
    ¬ ("1969-12-31T23:59:59".toList <+: "1969-12-31T18:59:59-05:00".toList) ∧
    convert (fixedZoneEnv 1172) (optionsFrom "millis".toList) "-1".toList
      = .ok "1970-01-01T00:19:31+00:19".toList ∧
    rfc3339Instant "1970-01-01T00:19:31+00:19".toList = some 31 := by
  refine ⟨by decide, by decide, by decide, by decide⟩

/-! ## The shape of the output -/

theorem appendInt_four_digits (x : Nat) (h2 : x < 10000) :
    appendInt (x : Int) 4 = [Char.ofNat ('0'.toNat + x / 1000), Char.ofNat ('0'.toNat + x / 100 % 10),
      Char.ofNat ('0'.toNat + x / 10 % 10), Char.ofNat ('0'.toNat + x % 10)] := by
  by_cases h1 : 1000 ≤ x
  · exact appendInt_four x h1 h2
  · have hx : ¬ ((x : Int) < 0) := by omega
    have hu : toUint64 (x : Int) = x := by unfold toUint64; omega
    unfold appendInt
    simp only [hx, if_false, hu, List.nil_append]
    have z1 : x / 1000 = 0 := by omega
    rw [z1]
    by_cases a1 : x ≥ 10
    · by_cases a2 : x / 10 ≥ 10
      · have a3 : ¬ (x / 10 / 10 ≥ 10) := by omega
        have e1 : x - x / 10 * 10 = x % 10 := by omega
        have e2 : x / 10 - x / 10 / 10 * 10 = x / 10 % 10 := by omega
        have e3 : x / 10 / 10 = x / 100 % 10 := by omega
        rw [show (20 : Nat) = 19 + 1 from rfl, appendIntLoop_step _ _ _ a1,
          show (19 : Nat) = 18 + 1 from rfl, appendIntLoop_step _ _ _ a2,
          show (18 : Nat) = 17 + 1 from rfl, appendIntLoop_last _ _ _ a3, e1, e2, e3]
        rfl
      · have e1 : x - x / 10 * 10 = x % 10 := by omega
        have e2 : x / 10 = x / 10 % 10 := by omega
        have e3 : x / 100 % 10 = 0 := by omega
        rw [show (20 : Nat) = 19 + 1 from rfl, appendIntLoop_step _ _ _ a1,
          show (19 : Nat) = 18 + 1 from rfl, appendIntLoop_last _ _ _ a2, e1, e3, ← e2]
        rfl
    · have e1 : x % 10 = x := by omega
      have e2 : x / 10 % 10 = 0 := by omega
      have e3 : x / 100 % 10 = 0 := by omega
      rw [show (20 : Nat) = 19 + 1 from rfl, appendIntLoop_last _ _ _ a1, e1, e2, e3]
      rfl

theorem zoneShape_appendZone (off : Int) (h1 : -360000 < off) (h2 : off < 360000) :
    zoneShape (appendZone off) = true := by
  unfold appendZone
  by_cases h0 : off = 0
  · rw [if_pos h0]
    rfl
  · rw [if_neg h0]
    dsimp only
    have hb : -6000 < Int.tdiv off 60 ∧ Int.tdiv off 60 < 6000 := by
      rcases tdiv_cases off 60 (by norm_num) with ⟨hs, hq⟩ | ⟨hs, hq⟩ <;> rw [hq] <;> omega
    generalize Int.tdiv off 60 = z at hb
    by_cases hz : z < 0
    · obtain ⟨k, hk⟩ : ∃ k : Nat, (k : Int) = -z := ⟨(-z).toNat, by omega⟩
      rw [if_pos hz, ← hk, Int.tdiv_eq_ediv (by omega) (by norm_num),
        Int.tmod_eq_emod (by omega) (by norm_num)]
      have e1 : (k : Int) / 60 = ((k / 60 : Nat) : Int) := by omega
      have e2 : (k : Int) % 60 = ((k % 60 : Nat) : Int) := by omega
      rw [e1, e2, appendInt_two _ (by omega), appendInt_two _ (by omega)]
      have d1 := isDigit_digitChar (k / 60 / 10) (by omega)
      have d2 := isDigit_digitChar (k / 60 % 10) (by omega)
      have d3 := isDigit_digitChar (k % 60 / 10) (by omega)
      have d4 := isDigit_digitChar (k % 60 % 10) (by omega)
      simp only [List.cons_append, List.nil_append, zoneShape, List.all_cons, List.all_nil,
        d1, d2, d3, d4, Bool.and_self, or_true, and_self, decide_True]
    · obtain ⟨k, hk⟩ : ∃ k : Nat, (k : Int) = z := ⟨z.toNat, by omega⟩
      rw [if_neg hz, ← hk, Int.tdiv_eq_ediv (by omega) (by norm_num),
        Int.tmod_eq_emod (by omega) (by norm_num)]
      have e1 : (k : Int) / 60 = ((k / 60 : Nat) : Int) := by omega
      have e2 : (k : Int) % 60 = ((k % 60 : Nat) : Int) := by omega
      rw [e1, e2, appendInt_two _ (by omega), appendInt_two _ (by omega)]
      have d1 := isDigit_digitChar (k / 60 / 10) (by omega)
      have d2 := isDigit_digitChar (k / 60 % 10) (by omega)
      have d3 := isDigit_digitChar (k % 60 / 10) (by omega)
      have d4 := isDigit_digitChar (k % 60 % 10) (by omega)
      simp only [List.cons_append, List.nil_append, zoneShape, List.all_cons, List.all_nil,
        d1, d2, d3, d4, Bool.and_self, true_or, and_self, decide_True]

theorem Civil_text_split (c : Civil) : c.text = appendInt c.year 4 ++ c.textAfterYear := by
  unfold Civil.text Civil.textAfterYear
  simp only [List.append_assoc]

/-- The text of a valid calendar time, with four digits in place of the
year and followed by a zone part, has the fixed shape. -/
theorem rfc3339Shape_afterYear (c : Civil) (hv : c.valid) (y : Nat) (hy : y < 10000) (zone : Str)
    (hz : zoneShape zone = true) :
    rfc3339Shape (appendInt (y : Int) 4 ++ c.textAfterYear ++ zone) = true := by
  obtain ⟨yy, mo, d, h, mi, s⟩ := c
  obtain ⟨v1, v2, v3, v4, v5, v6, v7⟩ := hv
  simp only at v1 v2 v3 v4 v5 v6 v7
  have hd31 : d ≤ 31 := by
    have : monthLength (leapYear yy) mo ≤ 31 := by
      unfold monthLength
      split <;> try omega
      split <;> omega
    omega
  unfold Civil.textAfterYear
  simp only
  rw [appendInt_four_digits y hy, appendInt_two mo (by omega),
    appendInt_two d (by omega), appendInt_two h (by omega), appendInt_two mi (by omega),
    appendInt_two s (by omega)]
  simp only [List.cons_append, List.nil_append, rfc3339Shape]
  have dy1 := isDigit_digitChar (y / 1000) (by omega)
  have dy2 := isDigit_digitChar (y / 100 % 10) (by omega)
  have dy3 := isDigit_digitChar (y / 10 % 10) (by omega)
  have dy4 := isDigit_digitChar (y % 10) (by omega)
  have dm1 := isDigit_digitChar (mo / 10) (by omega)
  have dm2 := isDigit_digitChar (mo % 10) (by omega)
  have dd1 := isDigit_digitChar (d / 10) (by omega)
  have dd2 := isDigit_digitChar (d % 10) (by omega)
  have dh1 := isDigit_digitChar (h / 10) (by omega)
  have dh2 := isDigit_digitChar (h % 10) (by omega)
  have dn1 := isDigit_digitChar (mi / 10) (by omega)
  have dn2 := isDigit_digitChar (mi % 10) (by omega)
  have ds1 := isDigit_digitChar (s / 10) (by omega)
  have ds2 := isDigit_digitChar (s % 10) (by omega)
  have em := digitsValue_two (mo / 10) (mo % 10) (by omega) (by omega)
  have ed := digitsValue_two (d / 10) (d % 10) (by omega) (by omega)
  have eh := digitsValue_two (h / 10) (h % 10) (by omega) (by omega)
  have en := digitsValue_two (mi / 10) (mi % 10) (by omega) (by omega)
  have es := digitsValue_two (s / 10) (s % 10) (by omega) (by omega)
  have f2 : mo / 10 * 10 + mo % 10 = mo := by omega
  have f3 : d / 10 * 10 + d % 10 = d := by omega
  have f4 : h / 10 * 10 + h % 10 = h := by omega
  have f5 : mi / 10 * 10 + mi % 10 = mi := by omega
  have f6 : s / 10 * 10 + s % 10 = s := by omega
  have g4 : h ≤ 23 := by omega
  have g5 : mi ≤ 59 := by omega
  have g6 : s ≤ 59 := by omega
  simp only [List.all_cons, List.all_nil, dy1, dy2, dy3, dy4, dm1, dm2, dd1, dd2, dh1, dh2,
    dn1, dn2, ds1, ds2, Bool.and_self, em, ed, eh, en, es, f2, f3, f4, f5, f6,
    and_self, v1, v2, v3, hd31, g4, g5, g6, hz, decide_True]

theorem absOfUnix_lt (s : Int) : absOfUnix s < 2 ^ 64 := by
  unfold absOfUnix toUint64
  omega

theorem month_days_in_year : ∀ l : Bool, ∀ m : Nat, m < 13 → 1 ≤ m →
    daysBeforeMonth l m + monthLength l m ≤ (if l then 366 else 365) := by
  decide

/-- A valid calendar time between 0000-01-01T00:00:00 and 9999-12-31T23:59:59
has a year from 0 to 9999. -/
theorem year_in_range (c : Civil) (hv : c.valid) (h1 : -62167219200 ≤ c.toUnix)
    (h2 : c.toUnix < 253402300800) : 0 ≤ c.year ∧ c.year ≤ 9999 := by
  obtain ⟨v1, v2, v3, v4, v5, v6, v7⟩ := hv
  have hb := month_days_in_year (leapYear c.year) c.month (by omega) v1
  unfold Civil.toUnix at h1 h2
  have e1970 : daysBeforeYear 1970 = 719162 := by decide
  rw [e1970] at h1 h2
  unfold daysBeforeYear at h1 h2
  cases hl : leapYear c.year
  · rw [hl] at hb h1 h2 v4
    simp only [Bool.false_eq_true, if_false] at hb
    generalize daysBeforeMonth false c.month = dm at *
    generalize monthLength false c.month = ml at *
    constructor
    · by_cases hg : c.year = -1
      · rw [hg] at h1
        omega
      · omega
    · omega
  · have h4 : c.year % 4 = 0 := by
      unfold leapYear at hl
      simp only [decide_eq_true_eq] at hl
      exact hl.1
    rw [hl] at hb h1 h2 v4
    simp only [if_true] at hb
    generalize daysBeforeMonth true c.month = dm at *
    generalize monthLength true c.month = ml at *
    constructor
    · by_cases hg : c.year = -4
      · rw [hg] at h1
        omega
      · omega
    · omega

/-- The shape of the text of `Options.To` when the year of the local wall
clock has four digits. -/
theorem To_shape (env : Env) (o : Options) (t : Time)
    (hto : formatRFC3339.Matches env.lowerTable o.ToFormat = true) (hloc : t.loc = .Local)
    (hz1 : -360000 < env.localOffset t.unixSec) (hz2 : env.localOffset t.unixSec < 360000)
    (h1 : -62167219200 ≤ t.unixSec + env.localOffset t.unixSec)
    (h2 : t.unixSec + env.localOffset t.unixSec < 253402300800) :
    ∃ out, o.To env t = .ok out ∧ rfc3339Shape out = true := by
  have hb := absOfUnix_lt (t.unixSec + env.localOffset t.unixSec)
  obtain ⟨ha, _⟩ := absOfUnix_eq (t.unixSec + env.localOffset t.unixSec)
    (by unfold unixToInternal internalToAbsolute secondsPerDay secondsPerHour secondsPerMinute
        omega) (by omega)
  obtain ⟨hv, hu⟩ := civilOfAbs_spec _ hb
  have hu' : (civilOfAbs (absOfUnix (t.unixSec + env.localOffset t.unixSec))).toUnix
      = t.unixSec + env.localOffset t.unixSec := by
    rw [hu, ha]
    omega
  obtain ⟨y1, y2⟩ := year_in_range _ hv (by rw [hu']; exact h1) (by rw [hu']; exact h2)
  refine ⟨_, To_Local env o t hto hloc, ?_⟩
  obtain ⟨k, hk⟩ : ∃ k : Nat, (k : Int)
      = (civilOfAbs (absOfUnix (t.unixSec + env.localOffset t.unixSec))).year :=
    ⟨(civilOfAbs (absOfUnix (t.unixSec + env.localOffset t.unixSec))).year.toNat, by omega⟩
  rw [Civil_text_split, ← hk]
  exact rfc3339Shape_afterYear _ hv k (by omega) _ (zoneShape_appendZone _ hz1 hz2)

theorem From_nano_range (env : Env) (o : Options) (text : Str) (t : Time)
    (hn : formatNano.Matches env.lowerTable o.FromFormat = true)
    (hfrom : o.From env text = .ok t) :
    -9223372037 ≤ t.unixSec ∧ t.unixSec ≤ 9223372036 := by
  rw [From_nano env o text hn] at hfrom
  cases hp : ParseInt text with
  | error err => rw [hp] at hfrom; simp at hfrom
  | ok v =>
    rw [hp] at hfrom
    simp only [Result.ok.injEq] at hfrom
    obtain ⟨_, r1, r2, hv⟩ := (ParseInt_ok_iff text v).mp hp
    rw [hv] at r1 r2
    simp only [minInt64, maxInt64] at r1 r2
    rw [← hfrom, Unix_unixSec_floor 0 v (by omega) (by omega) (by omega) (by omega)]
    omega

/-- C12, as the code has it. For every instant `t` that `Options.From`
returns (so for the text of every signed 64-bit integer and each of the four
input rules) and a local zone offset of less than 100 hours, the string of
the calendar-string rule is the year, then `-`, a 2-digit month, `-`, a
2-digit day, the `T` separator, a 2-digit hour, `:`, a 2-digit minute, `:`,
a 2-digit second, followed by `Z` or a sign, two digits, a colon and two
digits, with month in 01..12, day in 01..31, hour in 00..23, minute and
second in 00..59.  The year has exactly four digits, and the whole string the
fixed shape, when the local wall clock lies in the years 0000 to 9999; this
is always so with the nanoseconds rule (for a zone offset of at most a
day). -/
theorem output_shape (env : Env) (o : Options) (text : Str) (t : Time)
    (hto : formatRFC3339.Matches env.lowerTable o.ToFormat = true)
    (hfrom : o.From env text = .ok t)
    (hz1 : -360000 < env.localOffset t.unixSec) (hz2 : env.localOffset t.unixSec < 360000) :
    (∃ c : Civil, c.valid ∧
      o.To env t = .ok (appendInt c.year 4 ++ c.textAfterYear
        ++ appendZone (env.localOffset t.unixSec)) ∧
      rfc3339Shape ("0000".toList ++ c.textAfterYear ++ appendZone (env.localOffset t.unixSec))
        = true) ∧
    (-62167219200 ≤ t.unixSec + env.localOffset t.unixSec →
      t.unixSec + env.localOffset t.unixSec < 253402300800 →
      ∃ out, o.To env t = .ok out ∧ rfc3339Shape out = true) ∧
    (formatNano.Matches env.lowerTable o.FromFormat = true →
      -86400 ≤ env.localOffset t.unixSec → env.localOffset t.unixSec ≤ 86400 →
      ∃ out, o.To env t = .ok out ∧ rfc3339Shape out = true) := by
  have hloc := From_loc env o text t hfrom
  refine ⟨?_, ?_, ?_⟩
  · have hb := absOfUnix_lt (t.unixSec + env.localOffset t.unixSec)
    obtain ⟨hv, _⟩ := civilOfAbs_spec _ hb
    refine ⟨_, hv, ?_, ?_⟩
    · rw [To_Local env o t hto hloc, Civil_text_split]
    · exact rfc3339Shape_afterYear _ hv 0 (by norm_num) _ (zoneShape_appendZone _ hz1 hz2)
  · intro h1 h2
    exact To_shape env o t hto hloc hz1 hz2 h1 h2
  · intro hn z1 z2
    obtain ⟨r1, r2⟩ := From_nano_range env o text t hn hfrom
    exact To_shape env o t hto hloc hz1 hz2 (by omega) (by omega)

theorem output_shape_witness :
    ∃ out, (optionsFrom "nanos".toList).To (fixedZoneEnv 3600) (Unix 0 (-1)) = .ok out ∧
      rfc3339Shape out = true :=
  (output_shape (fixedZoneEnv 3600) (optionsFrom "nanos".toList) "-1".toList (Unix 0 (-1))
    (by decide) (by decide) (by decide) (by decide)).2.2 (by decide) (by decide) (by decide)

set_option maxRecDepth 100000 in
/-- C12 as stated fails outside the years 0000 to 9999: with the seconds rule
on UTC, the second count `253402300800` is rendered with a five-digit year,
`10000-01-01T00:00:00Z`, and `-62167219201` with a minus sign,
`-0001-12-31T23:59:59Z`; with the milliseconds rule `253402300800000` gives
the five-digit year too.  None has the fixed shape. -/
theorem output_shape_counterexample :
    convert utcEnv (optionsFrom "unix".toList) "253402300800".toList
      = .ok "10000-01-01T00:00:00Z".toList ∧
    rfc3339Shape "10000-01-01T00:00:00Z".toList = false ∧
    convert utcEnv (optionsFrom "unix".toList) "-62167219201".toList
      = .ok "-0001-12-31T23:59:59Z".toList ∧
    rfc3339Shape "-0001-12-31T23:59:59Z".toList = false ∧
    convert utcEnv (optionsFrom "millis".toList) "253402300800000".toList
      = .ok "10000-01-01T00:00:00Z".toList := by
  refine ⟨by decide, by decide, by decide, by decide, by decide⟩

end Timeconv
